import Mathlib


/-!
# 9cc: tokenizer, recursive-descent parser and stack-machine code generator

A shallow embedding of `src/9cc.c`.

* A `char *` into the NUL-terminated command-line argument is the suffix of the
  argument it points at (a `List Char`); the difference `loc - user_input` of
  two such pointers is the difference of the lengths of the two suffixes.
* The singly linked token list is a `List Token`; the `next` field of a token
  is the tail of the list and `NULL` is the empty list.  The global cursor
  `token` is threaded through the parser functions explicitly.
* `error_at` ends the process; a call is the result `Res.fatal loc fmt`.  A
  dereference of `NULL` is the result `Res.fault`.
* The loops and the recursion of the parser and the tokenizer are unrolled
  with a fuel argument; `Res.timeout` is the result of running out of fuel.
  The drivers `tokenize` and `main` pass a fuel that is proved sufficient.
-/

namespace NineCC

/-! ## Data model -/

/-- Token kinds, `typedef enum { ... } TokenKind`. -/
inductive TokenKind where
  | TK_RESERVED
  | TK_EQ
  | TK_NQ
  | TK_LE
  | TK_GE
  | TK_NUM
  | TK_EOF
  deriving DecidableEq

open TokenKind

/-- The `struct Token` without its `next` field, which is the tail of the list
the token is stored in. -/
structure Token where
  kind : TokenKind
  val : Int
  str : List Char
  len : Int
  deriving DecidableEq

/-- Node kinds, `typedef enum { ... } NodeKind`. -/
inductive NodeKind where
  | ND_ADD
  | ND_SUB
  | ND_MUL
  | ND_DIV
  | ND_NUM
  deriving DecidableEq

open NodeKind

/-- The nodes that `new_node` and `new_node_num` build.  `new_node kind lhs rhs`
has `val = 0` (from `calloc`); `new_node_num val` has kind `ND_NUM` and no
children. -/
inductive Node where
  | new_node (kind : NodeKind) (lhs rhs : Node)
  | new_node_num (val : Int)
  deriving DecidableEq

open Node

/-- Result of a computation that may end the process. -/
inductive Res (α : Type) where
  | ok (a : α)
  | fatal (loc : List Char) (fmt : String)
  | fault
  | timeout
  deriving DecidableEq

/-- Sequencing: the first result that is not `ok` ends the computation. -/
def Res.bind {α β : Type} : Res α → (α → Res β) → Res β
  | .ok a, k => k a
  | .fatal loc fmt, _ => .fatal loc fmt
  | .fault, _ => .fault
  | .timeout, _ => .timeout

/-- The call `error_at(loc, fmt, ...)`: it never returns. -/
def error_at {α : Type} (loc : List Char) (fmt : String) : Res α :=
  .fatal loc fmt

/-- The column `pos = loc - user_input` that `error_at` puts the caret under. -/
def error_pos (user_input loc : List Char) : Int :=
  (user_input.length : Int) - (loc.length : Int)

/-! ## Token cursor -/

/-- Conversion of an `int` to `size_t` (64 bits). -/
def to_size_t (i : Int) : Nat :=
  (i % 18446744073709551616).toNat

/-- The test `memcmp(a, b, n) != 0`. -/
def memcmp (a b : List Char) (n : Nat) : Bool :=
  a.take n != b.take n

/-- The function `consume`: on a reserved token with the text `op` move to the
next token and return true, otherwise return false. -/
def consume (op : List Char) : List Token → Res (Bool × List Token)
  | [] => .fault
  | t :: next =>
    if t.kind ≠ TK_RESERVED ∨ op.length ≠ to_size_t t.len ∨
        memcmp t.str op (to_size_t t.len) = true then
      .ok (false, t :: next)
    else
      .ok (true, next)

/-- The function `expect`: like `consume`, a mismatch is fatal. -/
def expect (op : List Char) : List Token → Res (List Token)
  | [] => .fault
  | t :: next =>
    if t.kind ≠ TK_RESERVED ∨ op.length ≠ to_size_t t.len ∨
        memcmp t.str op (to_size_t t.len) = true then
      error_at t.str "'%c' is unexpected"
    else
      .ok next

/-- The function `expect_number`. -/
def expect_number : List Token → Res (Int × List Token)
  | [] => .fault
  | t :: next =>
    if t.kind ≠ TK_NUM then error_at t.str "Not a number"
    else .ok (t.val, next)

/-- The function `at_eof`. -/
def at_eof : List Token → Res Bool
  | [] => .fault
  | t :: _ => .ok (decide (t.kind = TK_EOF))

/-! ## Tokenizer -/

/-- The function `new_token`: a zeroed token with `kind`, `str` and `len` set.
Linking it behind `cur` is consing it onto the rest of the list. -/
def new_token (kind : TokenKind) (str : List Char) (len : Int) : Token :=
  { kind := kind, val := 0, str := str, len := len }

/-- The test `isspace(c)` in the C locale. -/
def isspace (c : Char) : Bool :=
  c.toNat = 32 || (9 ≤ c.toNat && c.toNat ≤ 13)

/-- The test `isdigit(c)`. -/
def isdigit (c : Char) : Bool :=
  48 ≤ c.toNat && c.toNat ≤ 57

/-- The digit loop of `strtol(p, &p, 10)`: the value accumulated so far and the
text left after the digits. -/
def strtol_digits : Nat → List Char → Nat × List Char
  | acc, [] => (acc, [])
  | acc, c :: cs =>
    if isdigit c = true then strtol_digits (acc * 10 + (c.toNat - 48)) cs
    else (acc, c :: cs)

/-- The largest `long`. -/
def LONG_MAX : Int := 9223372036854775807

/-- The call `strtol(p, &p, 10)` on a text that starts with a digit: the value
of the maximal digit run, clamped to `LONG_MAX`, and the new `p`. -/
def strtol (p : List Char) : Int × List Char :=
  let r := strtol_digits 0 p
  (if LONG_MAX < (r.1 : Int) then LONG_MAX else (r.1 : Int), r.2)

/-- Conversion of a `long` to `int` (32 bits, two's complement). -/
def to_int (v : Int) : Int :=
  (v + 2147483648) % 4294967296 - 2147483648

/-- The test `strncmp(p, "==", 2) == 0`. -/
def starts_eq_eq : List Char → Bool
  | a :: b :: _ => a = '=' && b = '='
  | _ => false

/-- The test for the one-character symbols in `tokenize`. -/
def is_reserved_char (c : Char) : Bool :=
  c = '+' || c = '-' || c = '*' || c = '/' || c = '(' || c = ')' || c = '<' || c = '>'

/-- The loop of `tokenize`, from the position `p` on; the result is the list
linked behind `cur`.  `token` is the global cursor, which the error branch
dereferences. -/
def tokenize_loop (token : List Token) : Nat → List Char → Res (List Token)
  | 0, _ => .timeout
  | _ + 1, [] => .ok [new_token TK_EOF [] (-2)]
  | f + 1, c :: cs =>
    if isspace c = true then
      tokenize_loop token f cs
    else if starts_eq_eq (c :: cs) = true then
      (tokenize_loop token f (cs.drop 1)).bind fun rest =>
        .ok (new_token TK_EQ (c :: cs) 2 :: rest)
    else if is_reserved_char c = true then
      (tokenize_loop token f cs).bind fun rest =>
        .ok (new_token TK_RESERVED (c :: cs) 1 :: rest)
    else if isdigit c = true then
      (tokenize_loop token f (strtol (c :: cs)).2).bind fun rest =>
        .ok ({ new_token TK_NUM (c :: cs) (-1) with
                val := to_int (strtol (c :: cs)).1 } :: rest)
    else
      match token with
      | [] => .fault
      | t :: _ => error_at t.str "can't tokenize"

/-- The function `tokenize`. -/
def tokenize (token : List Token) (p : List Char) : Res (List Token) :=
  tokenize_loop token (p.length + 1) p

/-! ## Parser -/

mutual

/-- The function `expr`. -/
def expr : Nat → List Token → Res (Node × List Token)
  | 0, _ => .timeout
  | f + 1, token =>
    (equality f token).bind fun r => expr_loop f r.1 r.2

/-- The `for(;;)` loop of `expr`. -/
def expr_loop : Nat → Node → List Token → Res (Node × List Token)
  | 0, _, _ => .timeout
  | f + 1, node, token =>
    (consume ['+'] token).bind fun c =>
      if c.1 = true then
        (mul f c.2).bind fun r => expr_loop f (new_node ND_ADD node r.1) r.2
      else
        (consume ['-'] c.2).bind fun c =>
          if c.1 = true then
            (mul f c.2).bind fun r => expr_loop f (new_node ND_SUB node r.1) r.2
          else
            .ok (node, c.2)

/-- The function `equality`. -/
def equality : Nat → List Token → Res (Node × List Token)
  | 0, _ => .timeout
  | f + 1, token => relational f token

/-- The function `relational`. -/
def relational : Nat → List Token → Res (Node × List Token)
  | 0, _ => .timeout
  | f + 1, token => add f token

/-- The function `add`. -/
def add : Nat → List Token → Res (Node × List Token)
  | 0, _ => .timeout
  | f + 1, token =>
    (mul f token).bind fun r => add_loop f r.1 r.2

/-- The `for(;;)` loop of `add`. -/
def add_loop : Nat → Node → List Token → Res (Node × List Token)
  | 0, _, _ => .timeout
  | f + 1, node, token =>
    (consume ['+'] token).bind fun c =>
      if c.1 = true then
        (mul f c.2).bind fun r => add_loop f (new_node ND_ADD node r.1) r.2
      else
        (consume ['-'] c.2).bind fun c =>
          if c.1 = true then
            (mul f c.2).bind fun r => add_loop f (new_node ND_SUB node r.1) r.2
          else
            .ok (node, c.2)

/-- The function `mul`. -/
def mul : Nat → List Token → Res (Node × List Token)
  | 0, _ => .timeout
  | f + 1, token =>
    (unary f token).bind fun r => mul_loop f r.1 r.2

/-- The `for(;;)` loop of `mul`. -/
def mul_loop : Nat → Node → List Token → Res (Node × List Token)
  | 0, _, _ => .timeout
  | f + 1, node, token =>
    (consume ['*'] token).bind fun c =>
      if c.1 = true then
        (unary f c.2).bind fun r => mul_loop f (new_node ND_MUL node r.1) r.2
      else
        (consume ['/'] c.2).bind fun c =>
          if c.1 = true then
            (unary f c.2).bind fun r => mul_loop f (new_node ND_DIV node r.1) r.2
          else
            .ok (node, c.2)

/-- The function `unary`. -/
def unary : Nat → List Token → Res (Node × List Token)
  | 0, _ => .timeout
  | f + 1, token =>
    (consume ['+'] token).bind fun c =>
      if c.1 = true then
        term f c.2
      else
        (consume ['-'] c.2).bind fun c =>
          if c.1 = true then
            (term f c.2).bind fun r =>
              .ok (new_node ND_SUB (new_node_num 0) r.1, r.2)
          else
            term f c.2

/-- The function `term`. -/
def term : Nat → List Token → Res (Node × List Token)
  | 0, _ => .timeout
  | f + 1, token =>
    (consume ['('] token).bind fun c =>
      if c.1 = true then
        (expr f c.2).bind fun r =>
          (expect [')'] r.2).bind fun token => .ok (r.1, token)
      else
        (expect_number c.2).bind fun v => .ok (new_node_num v.1, v.2)

end

/-- Fuel that is enough for parsing the token list `token`. -/
def parse_fuel (token : List Token) : Nat :=
  10 * token.length + 10

/-! ## Code generator -/

/-- The instructions that `gen` and `main` print. -/
inductive Instr where
  | push (imm : Int)
  | pop_rdi
  | pop_rax
  | add_rax_rdi
  | sub_rax_rdi
  | imul_rax_rdi
  | cqo
  | idiv_rdi
  | push_rax
  | ret
  deriving DecidableEq

/-- The line of assembly text that is printed for an instruction. -/
def Instr.asm : Instr → String
  | .push imm => "  push " ++ toString imm ++ "\n"
  | .pop_rdi => "  pop rdi\n"
  | .pop_rax => "  pop rax\n"
  | .add_rax_rdi => "  add rax, rdi\n"
  | .sub_rax_rdi => "  sub rax, rdi\n"
  | .imul_rax_rdi => "  imul rax, rdi\n"
  | .cqo => "  cqo\n"
  | .idiv_rdi => "  idiv rdi\n"
  | .push_rax => "  push rax\n"
  | .ret => "  ret\n"

/-- The function `gen`: the instructions it prints, in order. -/
def gen : Node → List Instr
  | new_node_num val => [Instr.push val]
  | new_node kind lhs rhs =>
    if kind = ND_NUM then [Instr.push 0]
    else
      gen lhs ++ gen rhs ++ [Instr.pop_rdi, Instr.pop_rax] ++
        (match kind with
          | ND_ADD => [Instr.add_rax_rdi]
          | ND_SUB => [Instr.sub_rax_rdi]
          | ND_MUL => [Instr.imul_rax_rdi]
          | ND_DIV => [Instr.cqo, Instr.idiv_rdi]
          | ND_NUM => []) ++
        [Instr.push_rax]

/-! ## Driver -/

/-- What a run of the compiler leaves behind. -/
inductive Outcome where
  | success (stdout : List String)
  | usage
  | error (pos : Int) (fmt : String)
  | segfault
  | timeout
  deriving DecidableEq

/-- Exit status of the process, if it exits. -/
def Outcome.status : Outcome → Option Nat
  | .success _ => some 0
  | .usage => some 1
  | .error _ _ => some 1
  | .segfault => none
  | .timeout => none

/-- Text written to the standard output. -/
def Outcome.stdout : Outcome → List String
  | .success out => out
  | _ => []

/-- The three lines printed before the body. -/
def prologue : List String :=
  [".intel_syntax noprefix\n", ".global main\n", "main:\n"]

/-- The instructions printed after the body. -/
def epilogue : List Instr :=
  [Instr.pop_rax, Instr.ret]

/-- The part of `main` after the argument count check, on `argv[1]`.  The
global `token` is still `NULL` while `tokenize` runs. -/
def compile (user_input : List Char) : Outcome :=
  match tokenize [] user_input with
  | .ok token =>
    (match expr (parse_fuel token) token with
      | .ok r => .success (prologue ++ (gen r.1 ++ epilogue).map Instr.asm)
      | .fatal loc fmt => .error (error_pos user_input loc) fmt
      | .fault => .segfault
      | .timeout => .timeout)
  | .fatal loc fmt => .error (error_pos user_input loc) fmt
  | .fault => .segfault
  | .timeout => .timeout

/-- The function `main` on the argument vector `argv` (`argc` is its length). -/
def main (argv : List (List Char)) : Outcome :=
  match argv with
  | [_, user_input] => compile user_input
  | _ => .usage

/-! ## Target machine -/

/-- The registers the emitted code uses and the evaluation stack. -/
structure Machine where
  rax : Int
  rdi : Int
  rdx : Int
  stack : List Int
  deriving DecidableEq

/-- A value is representable in a signed 64-bit register. -/
def fits64 (x : Int) : Bool :=
  decide (-9223372036854775808 ≤ x) && decide (x < 9223372036854775808)

/-- Reduction of an integer to the signed 64-bit range. -/
def wrap64 (x : Int) : Int :=
  (x + 9223372036854775808) % 18446744073709551616 - 9223372036854775808

/-- One instruction.  `none` is a trap: a pop from the empty stack, or the
divide error of `idiv` (a zero divisor or a quotient that does not fit).  The
immediate of `push` is an `int` and is pushed sign-extended. -/
def Instr.step : Instr → Machine → Option Machine
  | .push imm, m => some { m with stack := imm :: m.stack }
  | .pop_rdi, m =>
    match m.stack with
    | [] => none
    | v :: s => some { m with rdi := v, stack := s }
  | .pop_rax, m =>
    match m.stack with
    | [] => none
    | v :: s => some { m with rax := v, stack := s }
  | .add_rax_rdi, m => some { m with rax := wrap64 (m.rax + m.rdi) }
  | .sub_rax_rdi, m => some { m with rax := wrap64 (m.rax - m.rdi) }
  | .imul_rax_rdi, m => some { m with rax := wrap64 (m.rax * m.rdi) }
  | .cqo, m => some { m with rdx := if m.rax < 0 then -1 else 0 }
  | .idiv_rdi, m =>
    if m.rdi = 0 then none
    else
      if fits64 (Int.tdiv (m.rdx * 18446744073709551616 + m.rax % 18446744073709551616) m.rdi)
          = true then
        some { m with
          rax := Int.tdiv (m.rdx * 18446744073709551616 + m.rax % 18446744073709551616) m.rdi
          rdx := Int.tmod (m.rdx * 18446744073709551616 + m.rax % 18446744073709551616) m.rdi }
      else none
  | .push_rax, m => some { m with stack := m.rax :: m.stack }
  | .ret, m => some m

/-- Execution of a straight-line instruction sequence. -/
def exec : List Instr → Machine → Option Machine
  | [], m => some m
  | i :: rest, m => (i.step m).bind (exec rest)

/-- Height of the evaluation stack above the starting height after one
instruction; `none` when the instruction pops below the starting height. -/
def Instr.height : Instr → Nat → Option Nat
  | .push _, h => some (h + 1)
  | .push_rax, h => some (h + 1)
  | .pop_rdi, h => if h = 0 then none else some (h - 1)
  | .pop_rax, h => if h = 0 then none else some (h - 1)
  | _, h => some h

/-- Height of the evaluation stack after an instruction sequence. -/
def height_after : List Instr → Nat → Option Nat
  | [], h => some h
  | i :: rest, h => (i.height h).bind (height_after rest)

/-! ## Reference semantics -/

/-- Value of a tree in integer arithmetic: left subtree, right subtree, then
the operator of the node; division truncates toward zero.  A node of kind
`ND_NUM` has the value of its `val` field. -/
def eval : Node → Int
  | new_node_num val => val
  | new_node ND_ADD lhs rhs => eval lhs + eval rhs
  | new_node ND_SUB lhs rhs => eval lhs - eval rhs
  | new_node ND_MUL lhs rhs => eval lhs * eval rhs
  | new_node ND_DIV lhs rhs => Int.tdiv (eval lhs) (eval rhs)
  | new_node ND_NUM _ _ => 0

/-- No division by zero and no overflow anywhere in the evaluation of a tree. -/
def no_trap : Node → Bool
  | new_node_num val => fits64 val
  | new_node kind lhs rhs =>
    kind = ND_NUM ||
      (no_trap lhs && no_trap rhs && fits64 (eval (new_node kind lhs rhs)) &&
        (kind != ND_DIV || eval rhs != 0))

/-- Base-10 value of a run of digits. -/
def decimal (d : List Char) : Nat :=
  Nat.ofDigits 10 (d.reverse.map fun c => c.toNat - 48)

/-- The token is a reserved symbol with the text `op`: the three tests of
`consume` and `expect` all pass. -/
def sym (op : List Char) (t : Token) : Bool :=
  decide (t.kind = TK_RESERVED) && decide (op.length = to_size_t t.len) &&
    !memcmp t.str op (to_size_t t.len)

/-- The layers of the grammar. -/
inductive Level where
  | primary
  | unary
  | multiplicative
  | additive
  deriving DecidableEq

/-- The grammar over tokens, with the tree each phrase stands for:
`additive := multiplicative (('+'|'-') multiplicative)*`,
`multiplicative := unary (('*'|'/') unary)*`,
`unary := '+' primary | '-' primary | primary`,
`primary := '(' additive ')' | integer-literal`; repeated operators fold to
the left and a leading `-` is `0 - primary`. -/
inductive Parses : Level → List Token → Node → Prop where
  | num (t : Token) : t.kind = TK_NUM → Parses .primary [t] (new_node_num t.val)
  | paren (lp rp : Token) (e : List Token) (n : Node) :
      sym ['('] lp = true → sym [')'] rp = true → Parses .additive e n →
      Parses .primary (lp :: (e ++ [rp])) n
  | primary (p : List Token) (n : Node) : Parses .primary p n → Parses .unary p n
  | plus (s : Token) (p : List Token) (n : Node) :
      sym ['+'] s = true → Parses .primary p n → Parses .unary (s :: p) n
  | minus (s : Token) (p : List Token) (n : Node) :
      sym ['-'] s = true → Parses .primary p n →
      Parses .unary (s :: p) (new_node ND_SUB (new_node_num 0) n)
  | unary (u : List Token) (n : Node) : Parses .unary u n → Parses .multiplicative u n
  | times (o : Token) (m u : List Token) (a b : Node) :
      sym ['*'] o = true → Parses .multiplicative m a → Parses .unary u b →
      Parses .multiplicative (m ++ o :: u) (new_node ND_MUL a b)
  | over (o : Token) (m u : List Token) (a b : Node) :
      sym ['/'] o = true → Parses .multiplicative m a → Parses .unary u b →
      Parses .multiplicative (m ++ o :: u) (new_node ND_DIV a b)
  | multiplicative (m : List Token) (n : Node) :
      Parses .multiplicative m n → Parses .additive m n
  | sum (o : Token) (a m : List Token) (x y : Node) :
      sym ['+'] o = true → Parses .additive a x → Parses .multiplicative m y →
      Parses .additive (a ++ o :: m) (new_node ND_ADD x y)
  | difference (o : Token) (a m : List Token) (x y : Node) :
      sym ['-'] o = true → Parses .additive a x → Parses .multiplicative m y →
      Parses .additive (a ++ o :: m) (new_node ND_SUB x y)

/-- The grammar over source text, with the value each phrase has in integer
arithmetic: `*` and `/` bind tighter than `+` and `-`, operators of one layer
associate to the left, division truncates toward zero.  Blanks (the characters
of `isspace`) may stand before and after every phrase, so anywhere but inside
a literal.  A phrase has a value only when no literal exceeds the `int` range,
no divisor is zero and no intermediate result leaves the 64-bit range. -/
inductive Denotes : Level → List Char → Int → Prop where
  | literal (d : List Char) :
      d ≠ [] → (∀ c ∈ d, isdigit c = true) → decimal d < 2147483648 →
      Denotes .primary d (decimal d)
  | paren (e : List Char) (v : Int) :
      Denotes .additive e v → Denotes .primary ('(' :: (e ++ [')'])) v
  | primary (p : List Char) (v : Int) : Denotes .primary p v → Denotes .unary p v
  | plus (p : List Char) (v : Int) : Denotes .primary p v → Denotes .unary ('+' :: p) v
  | minus (p : List Char) (v : Int) :
      Denotes .primary p v → fits64 (0 - v) = true → Denotes .unary ('-' :: p) (0 - v)
  | unary (u : List Char) (v : Int) : Denotes .unary u v → Denotes .multiplicative u v
  | times (m u : List Char) (a b : Int) :
      Denotes .multiplicative m a → Denotes .unary u b → fits64 (a * b) = true →
      Denotes .multiplicative (m ++ '*' :: u) (a * b)
  | over (m u : List Char) (a b : Int) :
      Denotes .multiplicative m a → Denotes .unary u b → b ≠ 0 →
      fits64 (Int.tdiv a b) = true →
      Denotes .multiplicative (m ++ '/' :: u) (Int.tdiv a b)
  | multiplicative (m : List Char) (v : Int) :
      Denotes .multiplicative m v → Denotes .additive m v
  | sum (a m : List Char) (x y : Int) :
      Denotes .additive a x → Denotes .multiplicative m y → fits64 (x + y) = true →
      Denotes .additive (a ++ '+' :: m) (x + y)
  | difference (a m : List Char) (x y : Int) :
      Denotes .additive a x → Denotes .multiplicative m y → fits64 (x - y) = true →
      Denotes .additive (a ++ '-' :: m) (x - y)
  | blank_before (lvl : Level) (c : Char) (t : List Char) (v : Int) :
      isspace c = true → Denotes lvl t v → Denotes lvl (c :: t) v
  | blank_after (lvl : Level) (c : Char) (t : List Char) (v : Int) :
      isspace c = true → Denotes lvl t v → Denotes lvl (t ++ [c]) v

/-- The computation `g` has the result `res` for all sufficiently large fuel. -/
def Ev {α : Type} (g : Nat → Res α) (res : Res α) : Prop :=
  ∃ k, ∀ f, k ≤ f → g f = res

/-- The cursor is on a token that is neither `*` nor `/`. -/
def NoMulOp : List Token → Prop
  | [] => False
  | t :: _ => sym ['*'] t = false ∧ sym ['/'] t = false

/-- The cursor is on a token that is none of `+ - * /`. -/
def NoOp : List Token → Prop
  | [] => False
  | t :: _ =>
    sym ['+'] t = false ∧ sym ['-'] t = false ∧ sym ['*'] t = false ∧ sym ['/'] t = false

/-- Some token from the cursor on is the end-of-input token. -/
def HasEof (token : List Token) : Prop :=
  ∃ t ∈ token, t.kind = TK_EOF

/-! ## Parser calls -/

/-- A call of one of the parser functions, with its arguments. -/
inductive Call where
  | expr (token : List Token)
  | expr_loop (node : Node) (token : List Token)
  | equality (token : List Token)
  | relational (token : List Token)
  | add (token : List Token)
  | add_loop (node : Node) (token : List Token)
  | mul (token : List Token)
  | mul_loop (node : Node) (token : List Token)
  | unary (token : List Token)
  | term (token : List Token)

/-- The result of a call with the given fuel. -/
def Call.run (f : Nat) : Call → Res (Node × List Token)
  | .expr token => NineCC.expr f token
  | .expr_loop node token => NineCC.expr_loop f node token
  | .equality token => NineCC.equality f token
  | .relational token => NineCC.relational f token
  | .add token => NineCC.add f token
  | .add_loop node token => NineCC.add_loop f node token
  | .mul token => NineCC.mul f token
  | .mul_loop node token => NineCC.mul_loop f node token
  | .unary token => NineCC.unary f token
  | .term token => NineCC.term f token

/-- The cursor at the start of a call. -/
def Call.token : Call → List Token
  | .expr token => token
  | .expr_loop _ token => token
  | .equality token => token
  | .relational token => token
  | .add token => token
  | .add_loop _ token => token
  | .mul token => token
  | .mul_loop _ token => token
  | .unary token => token
  | .term token => token

/-- Depth of a function in the call chain from `expr` down to `term`. -/
def Call.level : Call → Nat
  | .expr _ => 9
  | .expr_loop _ _ => 8
  | .equality _ => 7
  | .relational _ => 6
  | .add _ => 5
  | .add_loop _ _ => 4
  | .mul _ => 3
  | .mul_loop _ _ => 2
  | .unary _ => 1
  | .term _ => 0

/-- Fuel that is enough for a call. -/
def Call.need (c : Call) : Nat :=
  10 * c.token.length + c.level + 1

/-- Number of tokens a call consumes at least when it returns: the loops may
return at once, every other function consumes a token. -/
def Call.consumes : Call → Nat
  | .expr_loop _ _ => 0
  | .add_loop _ _ => 0
  | .mul_loop _ _ => 0
  | _ => 1

/-- What a call has done when it returns the tree `n` with the cursor `r`: the
tokens it has consumed form a phrase of its grammar layer that stands for `n`
(for a loop: they extend a phrase for the tree it started with), and the
cursor is on a token that the loops of the layer do not take. -/
def Call.post : Call → Node → List Token → Prop
  | .expr token, n, r => ∃ pre, token = pre ++ r ∧ Parses .additive pre n ∧ NoOp r
  | .expr_loop node token, n, r => NoOp token → n = node ∧ r = token
  | .equality token, n, r => ∃ pre, token = pre ++ r ∧ Parses .additive pre n ∧ NoOp r
  | .relational token, n, r => ∃ pre, token = pre ++ r ∧ Parses .additive pre n ∧ NoOp r
  | .add token, n, r => ∃ pre, token = pre ++ r ∧ Parses .additive pre n ∧ NoOp r
  | .add_loop node token, n, r => NoMulOp token →
      ∃ pre, token = pre ++ r ∧ NoOp r ∧
        ∀ p0, Parses .additive p0 node → Parses .additive (p0 ++ pre) n
  | .mul token, n, r => ∃ pre, token = pre ++ r ∧ Parses .multiplicative pre n ∧ NoMulOp r
  | .mul_loop node token, n, r =>
      ∃ pre, token = pre ++ r ∧ NoMulOp r ∧
        ∀ p0, Parses .multiplicative p0 node → Parses .multiplicative (p0 ++ pre) n
  | .unary token, n, r => ∃ pre, token = pre ++ r ∧ Parses .unary pre n
  | .term token, n, r => ∃ pre, token = pre ++ r ∧ Parses .primary pre n

/-- What the parser does on a phrase of a grammar layer followed by the tokens
`r`: `term` and `unary` return its tree with the cursor on `r`; `mul` and
`add` go on with their loop on `r`, started with its tree. -/
def Complete : Level → List Token → Node → Prop
  | .primary, pre, n => ∀ r, Ev (fun f => term f (pre ++ r)) (Res.ok (n, r))
  | .unary, pre, n => ∀ r, Ev (fun f => unary f (pre ++ r)) (Res.ok (n, r))
  | .multiplicative, pre, n => ∀ r res,
      Ev (fun f => mul_loop f n r) res → Ev (fun f => mul f (pre ++ r)) res
  | .additive, pre, n => ∀ r res, NoMulOp r →
      Ev (fun f => add_loop f n r) res → Ev (fun f => add f (pre ++ r)) res

/-- The compiler succeeds on the source and the program it prints, run on any
machine state, ends with the value `v` in `rax`. -/
def Returns (user_input : List Char) (v : Int) : Prop :=
  ∃ body : List Instr,
    compile user_input = Outcome.success (prologue ++ body.map Instr.asm) ∧
    ∀ m : Machine, (exec body m).map Machine.rax = some v

/-- The token sequence `o1 a1 o2 a2 ...` of a list of operator and operand pairs. -/
def interleave : List (Token × Token) → List Token
  | [] => []
  | x :: rest => x.1 :: x.2 :: interleave rest

/-- An integer-literal token with the value `v` at the text `str`, as `tokenize`
builds it. -/
def num_token (v : Int) (str : List Char) : Token :=
  { new_token TK_NUM str (-1) with val := v }

/-- The reserved-symbol token of the character `c` followed by `rest`, as
`tokenize` builds it. -/
def sym_token (c : Char) (rest : List Char) : Token :=
  new_token TK_RESERVED (c :: rest) 1

/-- The end-of-input token, as `tokenize` builds it. -/
def eof_token : Token :=
  new_token TK_EOF [] (-2)

end NineCC


namespace NineCC

open TokenKind NodeKind Node

/-! ## Sequencing -/

@[simp] theorem Res.bind_ok {α β : Type} (a : α) (k : α → Res β) :
    (Res.ok a).bind k = k a := rfl

@[simp] theorem Res.bind_fatal {α β : Type} (loc : List Char) (fmt : String) (k : α → Res β) :
    (Res.fatal loc fmt : Res α).bind k = Res.fatal loc fmt := rfl

@[simp] theorem Res.bind_fault {α β : Type} (k : α → Res β) :
    (Res.fault : Res α).bind k = Res.fault := rfl

@[simp] theorem Res.bind_timeout {α β : Type} (k : α → Res β) :
    (Res.timeout : Res α).bind k = Res.timeout := rfl

theorem Res.bind_eq_ok {α β : Type} {x : Res α} {k : α → Res β} {b : β}
    (h : x.bind k = Res.ok b) : ∃ a, x = Res.ok a ∧ k a = Res.ok b := by
  cases x with
  | ok a => exact ⟨a, rfl, h⟩
  | fatal loc fmt => simp at h
  | fault => simp at h
  | timeout => simp at h

/-! ## Tokenizer: fuel -/

theorem strtol_digits_length (acc : Nat) (p : List Char) :
    (strtol_digits acc p).2.length ≤ p.length := by
  induction p generalizing acc with
  | nil => simp [strtol_digits]
  | cons c cs ih =>
    unfold strtol_digits
    split
    · exact Nat.le_succ_of_le (ih _)
    · simp

theorem strtol_length_lt (c : Char) (cs : List Char) (hc : isdigit c = true) :
    (strtol (c :: cs)).2.length ≤ cs.length := by
  simp only [strtol, strtol_digits, hc, if_true]
  exact strtol_digits_length _ _

theorem tokenize_loop_fuel (token : List Token) (f g : Nat) (p : List Char)
    (hf : p.length < f) (hg : p.length < g) :
    tokenize_loop token f p = tokenize_loop token g p := by
  induction f generalizing g p with
  | zero => omega
  | succ f ih =>
    obtain ⟨g, rfl⟩ : ∃ g0, g = g0 + 1 := ⟨g - 1, by omega⟩
    cases p with
    | nil => simp [tokenize_loop]
    | cons c cs =>
      simp only [List.length_cons] at hf hg
      simp only [tokenize_loop]
      split
      · exact ih g cs (by omega) (by omega)
      · split
        · rw [ih g (cs.drop 1) (by simp; omega) (by simp; omega)]
        · split
          · rw [ih g cs (by omega) (by omega)]
          · split
            · rename_i hd
              have := strtol_length_lt c cs hd
              rw [ih g _ (by omega) (by omega)]
            · rfl

theorem tokenize_nil (token : List Token) :
    tokenize token [] = Res.ok [new_token TK_EOF [] (-2)] := rfl

theorem tokenize_cons (token : List Token) (c : Char) (cs : List Char) :
    tokenize token (c :: cs) =
      if isspace c = true then tokenize token cs
      else if starts_eq_eq (c :: cs) = true then
        (tokenize token (cs.drop 1)).bind fun rest =>
          Res.ok (new_token TK_EQ (c :: cs) 2 :: rest)
      else if is_reserved_char c = true then
        (tokenize token cs).bind fun rest =>
          Res.ok (new_token TK_RESERVED (c :: cs) 1 :: rest)
      else if isdigit c = true then
        (tokenize token (strtol (c :: cs)).2).bind fun rest =>
          Res.ok ({ new_token TK_NUM (c :: cs) (-1) with
                    val := to_int (strtol (c :: cs)).1 } :: rest)
      else
        match token with
        | [] => Res.fault
        | t :: _ => error_at t.str "can't tokenize" := by
  simp only [tokenize, tokenize_loop, List.length_cons]
  split
  · exact tokenize_loop_fuel _ _ _ _ (by omega) (by omega)
  · split
    · rw [tokenize_loop_fuel token _ ((cs.drop 1).length + 1) _ (by simp; omega) (by omega)]
    · split
      · rfl
      · split
        · rename_i hd
          have := strtol_length_lt c cs hd
          rw [tokenize_loop_fuel token _ ((strtol (c :: cs)).2.length + 1) _
            (by omega) (by omega)]
        · rfl

theorem tokenize_ne_timeout (token : List Token) (p : List Char) :
    tokenize token p ≠ Res.timeout := by
  generalize h : p.length = n
  induction n using Nat.strong_induction_on generalizing p with
  | _ n ih =>
    cases p with
    | nil => simp [tokenize_nil]
    | cons c cs =>
      subst h
      have key : ∀ q : List Char, q.length ≤ cs.length → ∀ (k : List Token → Res (List Token)),
          (∀ r, k r ≠ Res.timeout) → (tokenize token q).bind k ≠ Res.timeout := by
        intro q hq k hk
        have := ih q.length (by simp; omega) q rfl
        cases hx : tokenize token q with
        | ok a => simpa using hk a
        | fatal loc fmt => simp
        | fault => simp
        | timeout => exact absurd hx this
      rw [tokenize_cons]
      split
      · exact ih cs.length (by simp) cs rfl
      · split
        · exact key _ (by simp) _ (by simp)
        · split
          · exact key _ (by simp) _ (by simp)
          · split
            · rename_i hd
              exact key _ (strtol_length_lt c cs hd) _ (by simp)
            · cases token <;> simp [error_at]

end NineCC


namespace NineCC

open TokenKind NodeKind Node

/-! ## Tokenizer: characters -/

theorem isdigit_not_isspace {c : Char} (h : isdigit c = true) : isspace c = false := by
  simp only [isdigit, Bool.and_eq_true, decide_eq_true_eq] at h
  simp only [isspace, Bool.or_eq_false_iff, Bool.and_eq_false_iff, decide_eq_false_iff_not]
  omega

theorem isdigit_not_reserved {c : Char} (h : isdigit c = true) : is_reserved_char c = false := by
  simp only [isdigit, Bool.and_eq_true, decide_eq_true_eq] at h
  simp only [is_reserved_char, Bool.or_eq_false_iff, decide_eq_false_iff_not]
  refine ⟨⟨⟨⟨⟨⟨⟨?_, ?_⟩, ?_⟩, ?_⟩, ?_⟩, ?_⟩, ?_⟩, ?_⟩ <;> (rintro rfl; revert h; decide)

theorem isdigit_ne_eq {c : Char} (h : isdigit c = true) : c ≠ '=' := by
  rintro rfl; revert h; decide

theorem isdigit_not_starts_eq_eq {c : Char} (cs : List Char) (h : isdigit c = true) :
    starts_eq_eq (c :: cs) = false := by
  cases cs with
  | nil => rfl
  | cons b bs => simp [starts_eq_eq, isdigit_ne_eq h]

/-! ## Tokenizer: the digit loop -/

theorem decimal_nil : decimal [] = 0 := by
  simp [decimal]

theorem decimal_cons (c : Char) (cs : List Char) :
    decimal (c :: cs) = (c.toNat - 48) * 10 ^ cs.length + decimal cs := by
  simp [decimal, Nat.ofDigits_append, Nat.ofDigits_singleton]
  ring

theorem strtol_digits_stop (acc : Nat) (r : List Char)
    (hr : ∀ c ∈ r.head?, isdigit c = false) : strtol_digits acc r = (acc, r) := by
  cases r with
  | nil => rfl
  | cons c cs =>
    have := hr c (by simp)
    simp [strtol_digits, this]

theorem strtol_digits_append (acc : Nat) (d r : List Char)
    (hd : ∀ c ∈ d, isdigit c = true) (hr : ∀ c ∈ r.head?, isdigit c = false) :
    strtol_digits acc (d ++ r) = (acc * 10 ^ d.length + decimal d, r) := by
  induction d generalizing acc with
  | nil => simp [strtol_digits_stop acc r hr, decimal_nil]
  | cons c cs ih =>
    have hc := hd c (by simp)
    rw [List.cons_append, strtol_digits]
    simp only [hc, if_true]
    rw [ih _ (fun x hx => hd x (by simp [hx])), decimal_cons]
    simp only [List.length_cons, Prod.mk.injEq, and_true]
    ring

theorem strtol_append (d r : List Char)
    (hd : ∀ c ∈ d, isdigit c = true) (hr : ∀ c ∈ r.head?, isdigit c = false) :
    strtol (d ++ r) =
      (if LONG_MAX < (decimal d : Int) then LONG_MAX else (decimal d : Int), r) := by
  simp [strtol, strtol_digits_append 0 d r hd hr]

theorem to_int_small (v : Nat) (h : v < 2147483648) :
    to_int (if LONG_MAX < (v : Int) then LONG_MAX else (v : Int)) = v := by
  have h1 : ¬ LONG_MAX < (v : Int) := by
    simp only [LONG_MAX]; omega
  simp only [h1, if_false, to_int]
  omega

/-! ## Tokenizer: induction over a successful scan -/

theorem tokenize_induct (token : List Token) (Q : List Char → List Token → Prop)
    (hnil : Q [] [new_token TK_EOF [] (-2)])
    (hsp : ∀ c cs ts, isspace c = true → tokenize token cs = Res.ok ts → Q cs ts →
      Q (c :: cs) ts)
    (heq : ∀ cs ts, tokenize token cs = Res.ok ts → Q cs ts →
      Q ('=' :: '=' :: cs) (new_token TK_EQ ('=' :: '=' :: cs) 2 :: ts))
    (hres : ∀ c cs ts, is_reserved_char c = true → tokenize token cs = Res.ok ts → Q cs ts →
      Q (c :: cs) (new_token TK_RESERVED (c :: cs) 1 :: ts))
    (hnum : ∀ c cs ts, isdigit c = true →
      tokenize token (strtol (c :: cs)).2 = Res.ok ts → Q (strtol (c :: cs)).2 ts →
      Q (c :: cs) ({ new_token TK_NUM (c :: cs) (-1) with
                      val := to_int (strtol (c :: cs)).1 } :: ts)) :
    ∀ p ts, tokenize token p = Res.ok ts → Q p ts := by
  intro p
  generalize h : p.length = n
  induction n using Nat.strong_induction_on generalizing p with
  | _ n ih =>
    intro ts hts
    cases p with
    | nil =>
      rw [tokenize_nil] at hts
      cases hts
      exact hnil
    | cons c cs =>
      subst h
      rw [tokenize_cons] at hts
      split at hts
      · rename_i h1
        exact hsp c cs ts h1 hts (ih cs.length (by simp) cs rfl ts hts)
      · split at hts
        · rename_i h2
          obtain ⟨rest, hrest, hk⟩ := Res.bind_eq_ok hts
          cases hk
          cases cs with
          | nil => simp [starts_eq_eq] at h2
          | cons b bs =>
            simp only [starts_eq_eq, Bool.and_eq_true, decide_eq_true_eq] at h2
            obtain ⟨rfl, rfl⟩ := h2
            simp only [List.drop_succ_cons, List.drop_zero] at hrest
            exact heq bs rest hrest (ih bs.length (by simp; omega) bs rfl rest hrest)
        · split at hts
          · rename_i h3
            obtain ⟨rest, hrest, hk⟩ := Res.bind_eq_ok hts
            cases hk
            exact hres c cs rest h3 hrest (ih cs.length (by simp) cs rfl rest hrest)
          · split at hts
            · rename_i h4
              obtain ⟨rest, hrest, hk⟩ := Res.bind_eq_ok hts
              cases hk
              have hlen := strtol_length_lt c cs h4
              exact hnum c cs rest h4 hrest
                (ih _ (by simp; omega) _ rfl rest hrest)
            · cases token <;> simp [error_at] at hts

/-- Every token of a successful scan points into the scanned text. -/
theorem tokenize_str_length (token : List Token) (p : List Char) (ts : List Token)
    (h : tokenize token p = Res.ok ts) : ∀ t ∈ ts, t.str.length ≤ p.length := by
  refine tokenize_induct token (fun p ts => ∀ t ∈ ts, t.str.length ≤ p.length)
    ?_ ?_ ?_ ?_ ?_ p ts h
  · simp [new_token]
  · intro c cs ts _ _ ih t ht
    have := ih t ht
    simp only [List.length_cons]; omega
  · intro cs ts _ ih t ht
    rcases List.mem_cons.mp ht with rfl | ht
    · simp [new_token]
    · have := ih t ht
      simp only [List.length_cons]; omega
  · intro c cs ts _ _ ih t ht
    rcases List.mem_cons.mp ht with rfl | ht
    · simp [new_token]
    · have := ih t ht
      simp only [List.length_cons]; omega
  · intro c cs ts hd _ ih t ht
    rcases List.mem_cons.mp ht with rfl | ht
    · simp [new_token]
    · have := ih t ht
      have := strtol_length_lt c cs hd
      simp only [List.length_cons]; omega

/-- The shape of the tokens of a successful scan: all but the last are not
end-of-input tokens, the last is the end-of-input token at the end of the text. -/
theorem tokenize_shape (token : List Token) (p : List Char) (ts : List Token)
    (h : tokenize token p = Res.ok ts) :
    ∃ init, ts = init ++ [new_token TK_EOF [] (-2)] ∧ ∀ t ∈ init,
      (t.kind = TK_EQ ∧ t.len = 2 ∧ ∃ r, t.str = '=' :: '=' :: r) ∨
      (t.kind = TK_RESERVED ∧ t.len = 1 ∧ ∃ c r, t.str = c :: r ∧ is_reserved_char c = true) ∨
      (t.kind = TK_NUM ∧ t.len = -1 ∧ ∃ c r, t.str = c :: r ∧ isdigit c = true) := by
  refine tokenize_induct token (fun _ ts =>
    ∃ init, ts = init ++ [new_token TK_EOF [] (-2)] ∧ ∀ t ∈ init,
      (t.kind = TK_EQ ∧ t.len = 2 ∧ ∃ r, t.str = '=' :: '=' :: r) ∨
      (t.kind = TK_RESERVED ∧ t.len = 1 ∧ ∃ c r, t.str = c :: r ∧ is_reserved_char c = true) ∨
      (t.kind = TK_NUM ∧ t.len = -1 ∧ ∃ c r, t.str = c :: r ∧ isdigit c = true))
    ?_ ?_ ?_ ?_ ?_ p ts h
  · exact ⟨[], rfl, by simp⟩
  · intro c cs ts _ _ ih
    exact ih
  · rintro cs ts _ ⟨init, rfl, hi⟩
    refine ⟨_ :: init, rfl, ?_⟩
    intro t ht
    rcases List.mem_cons.mp ht with rfl | ht
    · exact Or.inl ⟨rfl, rfl, _, rfl⟩
    · exact hi t ht
  · rintro c cs ts hc _ ⟨init, rfl, hi⟩
    refine ⟨_ :: init, rfl, ?_⟩
    intro t ht
    rcases List.mem_cons.mp ht with rfl | ht
    · exact Or.inr (Or.inl ⟨rfl, rfl, _, _, rfl, hc⟩)
    · exact hi t ht
  · rintro c cs ts hc _ ⟨init, rfl, hi⟩
    refine ⟨_ :: init, rfl, ?_⟩
    intro t ht
    rcases List.mem_cons.mp ht with rfl | ht
    · exact Or.inr (Or.inr ⟨rfl, rfl, _, _, rfl, hc⟩)
    · exact hi t ht

theorem tokenize_digits (token : List Token) (d r : List Char) (ts : List Token)
    (hd : d ≠ []) (hdig : ∀ c ∈ d, isdigit c = true)
    (hr : ∀ c ∈ r.head?, isdigit c = false) (h : tokenize token r = Res.ok ts) :
    tokenize token (d ++ r) = Res.ok
      ({ kind := TK_NUM
         val := to_int (if LONG_MAX < (decimal d : Int) then LONG_MAX else (decimal d : Int))
         str := d ++ r
         len := -1 } :: ts) := by
  cases d with
  | nil => exact absurd rfl hd
  | cons c cs =>
    have hc := hdig c (by simp)
    have hs := strtol_append (c :: cs) r hdig hr
    simp only [List.cons_append] at hs ⊢
    rw [tokenize_cons]
    simp only [isdigit_not_isspace hc, isdigit_not_starts_eq_eq _ hc, isdigit_not_reserved hc,
      hc, hs, h, Res.bind_ok, new_token, Bool.false_eq_true, if_false, if_true]

theorem reserved_not_isspace {c : Char} (h : is_reserved_char c = true) : isspace c = false := by
  simp only [is_reserved_char, Bool.or_eq_true, decide_eq_true_eq] at h
  rcases h with ((((((rfl | rfl) | rfl) | rfl) | rfl) | rfl) | rfl) | rfl <;> decide

theorem reserved_ne_eq {c : Char} (h : is_reserved_char c = true) : c ≠ '=' := by
  rintro rfl; revert h; decide

theorem reserved_not_starts_eq_eq {c : Char} (cs : List Char) (h : is_reserved_char c = true) :
    starts_eq_eq (c :: cs) = false := by
  cases cs with
  | nil => rfl
  | cons b bs => simp [starts_eq_eq, reserved_ne_eq h]

theorem tokenize_reserved (token : List Token) (c : Char) (r : List Char) (ts : List Token)
    (hc : is_reserved_char c = true) (h : tokenize token r = Res.ok ts) :
    tokenize token (c :: r) = Res.ok (new_token TK_RESERVED (c :: r) 1 :: ts) := by
  rw [tokenize_cons]
  simp [reserved_not_isspace hc, reserved_not_starts_eq_eq r hc, hc, h]

end NineCC


namespace NineCC

open TokenKind NodeKind Node

/-! ## Token cursor -/

theorem consume_cons (op : List Char) (t : Token) (next : List Token) :
    consume op (t :: next) =
      if sym op t = true then Res.ok (true, next) else Res.ok (false, t :: next) := by
  simp only [consume, sym, ne_eq, Bool.and_eq_true, decide_eq_true_eq, Bool.not_eq_true']
  by_cases h1 : t.kind = TK_RESERVED <;> by_cases h2 : op.length = to_size_t t.len <;>
    cases h3 : memcmp t.str op (to_size_t t.len) <;> simp [h1, h2]

theorem expect_cons (op : List Char) (t : Token) (next : List Token) :
    expect op (t :: next) =
      if sym op t = true then Res.ok next else Res.fatal t.str "'%c' is unexpected" := by
  simp only [expect, sym, ne_eq, Bool.and_eq_true, decide_eq_true_eq, Bool.not_eq_true',
    error_at]
  by_cases h1 : t.kind = TK_RESERVED <;> by_cases h2 : op.length = to_size_t t.len <;>
    cases h3 : memcmp t.str op (to_size_t t.len) <;> simp [h1, h2]

theorem expect_number_cons (t : Token) (next : List Token) :
    expect_number (t :: next) =
      if t.kind = TK_NUM then Res.ok (t.val, next) else Res.fatal t.str "Not a number" := by
  simp only [expect_number, error_at, ne_eq, ite_not]

theorem sym_kind {op : List Char} {t : Token} (h : sym op t = true) : t.kind = TK_RESERVED := by
  simp only [sym, Bool.and_eq_true, decide_eq_true_eq] at h
  exact h.1.1

theorem sym_one {a : Char} {t : Token} (h : sym [a] t = true) : t.str.take 1 = [a] := by
  simp only [sym, memcmp, Bool.and_eq_true, decide_eq_true_eq, List.length_singleton,
    Bool.not_eq_true', bne_eq_false_iff_eq] at h
  obtain ⟨⟨_, h2⟩, h3⟩ := h
  rw [← h2] at h3
  simpa using h3

theorem sym_unique {a b : Char} {t : Token} (ha : sym [a] t = true) (hab : a ≠ b) :
    sym [b] t = false := by
  cases hb : sym [b] t with
  | false => rfl
  | true =>
    have h1 := sym_one ha
    have h2 := sym_one hb
    rw [h1] at h2
    exact absurd (List.head_eq_of_cons_eq h2) hab

theorem sym_of_kind {op : List Char} {t : Token} (h : t.kind ≠ TK_RESERVED) :
    sym op t = false := by
  cases hs : sym op t with
  | false => rfl
  | true => exact absurd (sym_kind hs) h

/-! ## One step of every parser function -/

theorem expr_succ (f : Nat) (token : List Token) :
    expr (f + 1) token = (equality f token).bind fun r => expr_loop f r.1 r.2 := by
  rw [expr]

theorem equality_succ (f : Nat) (token : List Token) :
    equality (f + 1) token = relational f token := by
  rw [equality]

theorem relational_succ (f : Nat) (token : List Token) :
    relational (f + 1) token = add f token := by
  rw [relational]

theorem add_succ (f : Nat) (token : List Token) :
    add (f + 1) token = (mul f token).bind fun r => add_loop f r.1 r.2 := by
  rw [add]

theorem mul_succ (f : Nat) (token : List Token) :
    mul (f + 1) token = (unary f token).bind fun r => mul_loop f r.1 r.2 := by
  rw [mul]

theorem expr_loop_nil (f : Nat) (node : Node) : expr_loop (f + 1) node [] = Res.fault := by
  simp [expr_loop, consume]

theorem expr_loop_cons (f : Nat) (node : Node) (t : Token) (next : List Token) :
    expr_loop (f + 1) node (t :: next) =
      if sym ['+'] t = true then
        (mul f next).bind fun r => expr_loop f (new_node ND_ADD node r.1) r.2
      else if sym ['-'] t = true then
        (mul f next).bind fun r => expr_loop f (new_node ND_SUB node r.1) r.2
      else Res.ok (node, t :: next) := by
  rw [expr_loop, consume_cons]
  by_cases h1 : sym ['+'] t = true
  · simp [h1]
  · by_cases h2 : sym ['-'] t = true <;> simp [h1, h2, consume_cons]

theorem add_loop_nil (f : Nat) (node : Node) : add_loop (f + 1) node [] = Res.fault := by
  simp [add_loop, consume]

theorem add_loop_cons (f : Nat) (node : Node) (t : Token) (next : List Token) :
    add_loop (f + 1) node (t :: next) =
      if sym ['+'] t = true then
        (mul f next).bind fun r => add_loop f (new_node ND_ADD node r.1) r.2
      else if sym ['-'] t = true then
        (mul f next).bind fun r => add_loop f (new_node ND_SUB node r.1) r.2
      else Res.ok (node, t :: next) := by
  rw [add_loop, consume_cons]
  by_cases h1 : sym ['+'] t = true
  · simp [h1]
  · by_cases h2 : sym ['-'] t = true <;> simp [h1, h2, consume_cons]

theorem mul_loop_nil (f : Nat) (node : Node) : mul_loop (f + 1) node [] = Res.fault := by
  simp [mul_loop, consume]

theorem mul_loop_cons (f : Nat) (node : Node) (t : Token) (next : List Token) :
    mul_loop (f + 1) node (t :: next) =
      if sym ['*'] t = true then
        (unary f next).bind fun r => mul_loop f (new_node ND_MUL node r.1) r.2
      else if sym ['/'] t = true then
        (unary f next).bind fun r => mul_loop f (new_node ND_DIV node r.1) r.2
      else Res.ok (node, t :: next) := by
  rw [mul_loop, consume_cons]
  by_cases h1 : sym ['*'] t = true
  · simp [h1]
  · by_cases h2 : sym ['/'] t = true <;> simp [h1, h2, consume_cons]

theorem unary_nil (f : Nat) : unary (f + 1) [] = Res.fault := by
  simp [unary, consume]

theorem unary_cons (f : Nat) (t : Token) (next : List Token) :
    unary (f + 1) (t :: next) =
      if sym ['+'] t = true then term f next
      else if sym ['-'] t = true then
        (term f next).bind fun r => Res.ok (new_node ND_SUB (new_node_num 0) r.1, r.2)
      else term f (t :: next) := by
  rw [unary, consume_cons]
  by_cases h1 : sym ['+'] t = true
  · simp [h1]
  · by_cases h2 : sym ['-'] t = true <;> simp [h1, h2, consume_cons]

theorem term_nil (f : Nat) : term (f + 1) [] = Res.fault := by
  simp [term, consume]

theorem term_cons (f : Nat) (t : Token) (next : List Token) :
    term (f + 1) (t :: next) =
      if sym ['('] t = true then
        (expr f next).bind fun r => (expect [')'] r.2).bind fun token => Res.ok (r.1, token)
      else if t.kind = TK_NUM then Res.ok (new_node_num t.val, next)
      else Res.fatal t.str "Not a number" := by
  rw [term, consume_cons]
  by_cases h1 : sym ['('] t = true
  · simp [h1]
  · by_cases h2 : t.kind = TK_NUM <;> simp [h1, h2, expect_number_cons]

theorem run_zero (c : Call) : c.run 0 = Res.timeout := by
  cases c <;> simp [Call.run, expr, expr_loop, equality, relational, add, add_loop, mul,
    mul_loop, unary, term]

end NineCC


namespace NineCC

open TokenKind NodeKind Node

/-! ## More fuel does not change a result -/

theorem bind_mono {α β : Type} {x y : Res α} {k l : α → Res β}
    (hx : x ≠ Res.timeout → y = x) (hk : ∀ a, k a ≠ Res.timeout → l a = k a) :
    x.bind k ≠ Res.timeout → y.bind l = x.bind k := by
  intro h
  cases x with
  | ok a =>
    rw [hx (by simp)]
    exact hk a h
  | fatal loc fmt => rw [hx (by simp)]; rfl
  | fault => rw [hx (by simp)]; rfl
  | timeout => simp at h

theorem run_mono_succ (f : Nat) (c : Call) :
    c.run f ≠ Res.timeout → c.run (f + 1) = c.run f := by
  induction f generalizing c with
  | zero =>
    intro h
    exact absurd (run_zero c) h
  | succ f ih =>
    cases c with
    | expr token =>
      simp only [Call.run]
      rw [expr_succ, expr_succ]
      exact bind_mono (ih (.equality token)) (fun a => ih (.expr_loop a.1 a.2))
    | expr_loop node token =>
      simp only [Call.run]
      cases token with
      | nil => rw [expr_loop_nil, expr_loop_nil]; intro _; rfl
      | cons t next =>
        rw [expr_loop_cons, expr_loop_cons]
        split
        · exact bind_mono (ih (.mul next)) (fun a => ih (.expr_loop _ a.2))
        · split
          · exact bind_mono (ih (.mul next)) (fun a => ih (.expr_loop _ a.2))
          · intro _; rfl
    | equality token =>
      simp only [Call.run]
      rw [equality_succ, equality_succ]
      exact ih (.relational token)
    | relational token =>
      simp only [Call.run]
      rw [relational_succ, relational_succ]
      exact ih (.add token)
    | add token =>
      simp only [Call.run]
      rw [add_succ, add_succ]
      exact bind_mono (ih (.mul token)) (fun a => ih (.add_loop a.1 a.2))
    | add_loop node token =>
      simp only [Call.run]
      cases token with
      | nil => rw [add_loop_nil, add_loop_nil]; intro _; rfl
      | cons t next =>
        rw [add_loop_cons, add_loop_cons]
        split
        · exact bind_mono (ih (.mul next)) (fun a => ih (.add_loop _ a.2))
        · split
          · exact bind_mono (ih (.mul next)) (fun a => ih (.add_loop _ a.2))
          · intro _; rfl
    | mul token =>
      simp only [Call.run]
      rw [mul_succ, mul_succ]
      exact bind_mono (ih (.unary token)) (fun a => ih (.mul_loop a.1 a.2))
    | mul_loop node token =>
      simp only [Call.run]
      cases token with
      | nil => rw [mul_loop_nil, mul_loop_nil]; intro _; rfl
      | cons t next =>
        rw [mul_loop_cons, mul_loop_cons]
        split
        · exact bind_mono (ih (.unary next)) (fun a => ih (.mul_loop _ a.2))
        · split
          · exact bind_mono (ih (.unary next)) (fun a => ih (.mul_loop _ a.2))
          · intro _; rfl
    | unary token =>
      simp only [Call.run]
      cases token with
      | nil => rw [unary_nil, unary_nil]; intro _; rfl
      | cons t next =>
        rw [unary_cons, unary_cons]
        split
        · exact ih (.term next)
        · split
          · exact bind_mono (ih (.term next)) (fun a _ => rfl)
          · exact ih (.term (t :: next))
    | term token =>
      simp only [Call.run]
      cases token with
      | nil => rw [term_nil, term_nil]; intro _; rfl
      | cons t next =>
        rw [term_cons, term_cons]
        split
        · exact bind_mono (ih (.expr next)) (fun a _ => rfl)
        · intro _; rfl

theorem run_mono (f g : Nat) (c : Call) (hfg : f ≤ g) (h : c.run f ≠ Res.timeout) :
    c.run g = c.run f := by
  induction g with
  | zero =>
    have : f = 0 := by omega
    subst this; rfl
  | succ g ih =>
    by_cases hf : f = g + 1
    · subst hf; rfl
    · have h1 := ih (by omega)
      rw [← h1]
      exact run_mono_succ g c (by rw [h1]; exact h)

end NineCC


namespace NineCC

open TokenKind NodeKind Node

/-! ## What a returning call has consumed -/

theorem run_sound (f : Nat) (c : Call) (n : Node) (r : List Token)
    (h : c.run f = Res.ok (n, r)) : c.post n r := by
  induction f generalizing c n r with
  | zero => rw [run_zero] at h; cases h
  | succ f ih =>
    cases c with
    | expr token =>
      simp only [Call.run] at h
      rw [expr_succ] at h
      obtain ⟨⟨a, r1⟩, ha, hk⟩ := Res.bind_eq_ok h
      obtain ⟨pre, rfl, hp, hno⟩ := ih (.equality token) a r1 ha
      obtain ⟨rfl, rfl⟩ := ih (.expr_loop a r1) n r hk hno
      exact ⟨pre, rfl, hp, hno⟩
    | expr_loop node token =>
      simp only [Call.run] at h
      intro hno
      cases token with
      | nil => exact hno.elim
      | cons t next =>
        rw [expr_loop_cons] at h
        simp only [hno.1, hno.2.1, Bool.false_eq_true, if_false, Res.ok.injEq,
          Prod.mk.injEq] at h
        exact ⟨h.1.symm, h.2.symm⟩
    | equality token =>
      simp only [Call.run] at h
      rw [equality_succ] at h
      exact ih (.relational token) n r h
    | relational token =>
      simp only [Call.run] at h
      rw [relational_succ] at h
      exact ih (.add token) n r h
    | add token =>
      simp only [Call.run] at h
      rw [add_succ] at h
      obtain ⟨⟨a, r1⟩, ha, hk⟩ := Res.bind_eq_ok h
      obtain ⟨pre, rfl, hp, hnm⟩ := ih (.mul token) a r1 ha
      obtain ⟨pre2, rfl, hno, hq⟩ := ih (.add_loop a r1) n r hk hnm
      exact ⟨pre ++ pre2, by simp, hq pre (Parses.multiplicative _ _ hp), hno⟩
    | add_loop node token =>
      simp only [Call.run] at h
      intro hnm
      cases token with
      | nil => exact hnm.elim
      | cons t next =>
        rw [add_loop_cons] at h
        split at h
        · rename_i hs
          obtain ⟨⟨b, r1⟩, hb, hk⟩ := Res.bind_eq_ok h
          obtain ⟨pre1, rfl, hp1, hnm1⟩ := ih (.mul next) b r1 hb
          obtain ⟨pre2, rfl, hno, hq⟩ := ih (.add_loop _ r1) n r hk hnm1
          refine ⟨t :: (pre1 ++ pre2), by simp, hno, ?_⟩
          intro p0 hp0
          have := hq (p0 ++ t :: pre1) (Parses.sum t p0 pre1 node b hs hp0 hp1)
          simpa using this
        · split at h
          · rename_i hs
            obtain ⟨⟨b, r1⟩, hb, hk⟩ := Res.bind_eq_ok h
            obtain ⟨pre1, rfl, hp1, hnm1⟩ := ih (.mul next) b r1 hb
            obtain ⟨pre2, rfl, hno, hq⟩ := ih (.add_loop _ r1) n r hk hnm1
            refine ⟨t :: (pre1 ++ pre2), by simp, hno, ?_⟩
            intro p0 hp0
            have := hq (p0 ++ t :: pre1) (Parses.difference t p0 pre1 node b hs hp0 hp1)
            simpa using this
          · rename_i h1 h2
            simp only [Res.ok.injEq, Prod.mk.injEq] at h
            obtain ⟨rfl, rfl⟩ := h
            refine ⟨[], rfl, ⟨by simpa using h1, by simpa using h2, hnm.1, hnm.2⟩, ?_⟩
            intro p0 hp0
            simpa using hp0
    | mul token =>
      simp only [Call.run] at h
      rw [mul_succ] at h
      obtain ⟨⟨a, r1⟩, ha, hk⟩ := Res.bind_eq_ok h
      obtain ⟨pre, rfl, hp⟩ := ih (.unary token) a r1 ha
      obtain ⟨pre2, rfl, hnm, hq⟩ := ih (.mul_loop a r1) n r hk
      exact ⟨pre ++ pre2, by simp, hq pre (Parses.unary _ _ hp), hnm⟩
    | mul_loop node token =>
      simp only [Call.run] at h
      cases token with
      | nil => rw [mul_loop_nil] at h; cases h
      | cons t next =>
        rw [mul_loop_cons] at h
        split at h
        · rename_i hs
          obtain ⟨⟨b, r1⟩, hb, hk⟩ := Res.bind_eq_ok h
          obtain ⟨pre1, rfl, hp1⟩ := ih (.unary next) b r1 hb
          obtain ⟨pre2, rfl, hnm, hq⟩ := ih (.mul_loop _ r1) n r hk
          refine ⟨t :: (pre1 ++ pre2), by simp, hnm, ?_⟩
          intro p0 hp0
          have := hq (p0 ++ t :: pre1) (Parses.times t p0 pre1 node b hs hp0 hp1)
          simpa using this
        · split at h
          · rename_i hs
            obtain ⟨⟨b, r1⟩, hb, hk⟩ := Res.bind_eq_ok h
            obtain ⟨pre1, rfl, hp1⟩ := ih (.unary next) b r1 hb
            obtain ⟨pre2, rfl, hnm, hq⟩ := ih (.mul_loop _ r1) n r hk
            refine ⟨t :: (pre1 ++ pre2), by simp, hnm, ?_⟩
            intro p0 hp0
            have := hq (p0 ++ t :: pre1) (Parses.over t p0 pre1 node b hs hp0 hp1)
            simpa using this
          · rename_i h1 h2
            simp only [Res.ok.injEq, Prod.mk.injEq] at h
            obtain ⟨rfl, rfl⟩ := h
            refine ⟨[], rfl, ⟨by simpa using h1, by simpa using h2⟩, ?_⟩
            intro p0 hp0
            simpa using hp0
    | unary token =>
      simp only [Call.run] at h
      cases token with
      | nil => rw [unary_nil] at h; cases h
      | cons t next =>
        rw [unary_cons] at h
        split at h
        · rename_i hs
          obtain ⟨pre, rfl, hp⟩ := ih (.term next) n r h
          exact ⟨t :: pre, rfl, Parses.plus t pre n hs hp⟩
        · split at h
          · rename_i hs
            obtain ⟨⟨a, r1⟩, ha, hk⟩ := Res.bind_eq_ok h
            obtain ⟨pre, rfl, hp⟩ := ih (.term next) a r1 ha
            simp only [Res.ok.injEq, Prod.mk.injEq] at hk
            obtain ⟨rfl, rfl⟩ := hk
            exact ⟨t :: pre, rfl, Parses.minus t pre a hs hp⟩
          · obtain ⟨pre, hpre, hp⟩ := ih (.term (t :: next)) n r h
            exact ⟨pre, hpre, Parses.primary _ _ hp⟩
    | term token =>
      simp only [Call.run] at h
      cases token with
      | nil => rw [term_nil] at h; cases h
      | cons t next =>
        rw [term_cons] at h
        split at h
        · rename_i hs
          obtain ⟨⟨a, r1⟩, ha, hk⟩ := Res.bind_eq_ok h
          obtain ⟨pre, rfl, hp, _⟩ := ih (.expr next) a r1 ha
          obtain ⟨tk, htk, hk2⟩ := Res.bind_eq_ok hk
          simp only [Res.ok.injEq, Prod.mk.injEq] at hk2
          obtain ⟨rfl, rfl⟩ := hk2
          cases r1 with
          | nil => simp [expect] at htk
          | cons rp r2 =>
            simp only [] at htk
            rw [expect_cons] at htk
            split at htk
            · rename_i hrp
              simp only [Res.ok.injEq] at htk
              subst htk
              exact ⟨t :: (pre ++ [rp]), by simp, Parses.paren t rp pre a hs hrp hp⟩
            · cases htk
        · split at h
          · rename_i hk
            simp only [Res.ok.injEq, Prod.mk.injEq] at h
            obtain ⟨rfl, rfl⟩ := h
            exact ⟨[t], rfl, Parses.num t hk⟩
          · cases h

theorem Parses.length_pos {lvl : Level} {pre : List Token} {n : Node}
    (h : Parses lvl pre n) : 0 < pre.length := by
  induction h <;> first | assumption | simp

/-- A returning call leaves the cursor on a later token of the same list. -/
theorem run_length (f : Nat) (c : Call) (n : Node) (r : List Token)
    (h : c.run f = Res.ok (n, r)) : r.length + c.consumes ≤ c.token.length := by
  induction f generalizing c n r with
  | zero => rw [run_zero] at h; cases h
  | succ f ih =>
    cases c with
    | expr token =>
      simp only [Call.run] at h
      rw [expr_succ] at h
      obtain ⟨⟨a, r1⟩, ha, hk⟩ := Res.bind_eq_ok h
      have h1 := ih (.equality token) a r1 ha
      have h2 := ih (.expr_loop a r1) n r hk
      simp only [Call.consumes, Call.token] at h1 h2 ⊢
      omega
    | expr_loop node token =>
      simp only [Call.run] at h
      cases token with
      | nil => rw [expr_loop_nil] at h; cases h
      | cons t next =>
        rw [expr_loop_cons] at h
        split at h
        · obtain ⟨⟨b, r1⟩, hb, hk⟩ := Res.bind_eq_ok h
          have h1 := ih (.mul next) b r1 hb
          have h2 := ih (.expr_loop _ r1) n r hk
          simp only [Call.consumes, Call.token, List.length_cons] at h1 h2 ⊢
          omega
        · split at h
          · obtain ⟨⟨b, r1⟩, hb, hk⟩ := Res.bind_eq_ok h
            have h1 := ih (.mul next) b r1 hb
            have h2 := ih (.expr_loop _ r1) n r hk
            simp only [Call.consumes, Call.token, List.length_cons] at h1 h2 ⊢
            omega
          · simp only [Res.ok.injEq, Prod.mk.injEq] at h
            obtain ⟨rfl, rfl⟩ := h
            simp [Call.consumes, Call.token]
    | equality token =>
      simp only [Call.run] at h
      rw [equality_succ] at h
      exact ih (.relational token) n r h
    | relational token =>
      simp only [Call.run] at h
      rw [relational_succ] at h
      exact ih (.add token) n r h
    | add token =>
      simp only [Call.run] at h
      rw [add_succ] at h
      obtain ⟨⟨a, r1⟩, ha, hk⟩ := Res.bind_eq_ok h
      have h1 := ih (.mul token) a r1 ha
      have h2 := ih (.add_loop a r1) n r hk
      simp only [Call.consumes, Call.token] at h1 h2 ⊢
      omega
    | add_loop node token =>
      simp only [Call.run] at h
      cases token with
      | nil => rw [add_loop_nil] at h; cases h
      | cons t next =>
        rw [add_loop_cons] at h
        split at h
        · obtain ⟨⟨b, r1⟩, hb, hk⟩ := Res.bind_eq_ok h
          have h1 := ih (.mul next) b r1 hb
          have h2 := ih (.add_loop _ r1) n r hk
          simp only [Call.consumes, Call.token, List.length_cons] at h1 h2 ⊢
          omega
        · split at h
          · obtain ⟨⟨b, r1⟩, hb, hk⟩ := Res.bind_eq_ok h
            have h1 := ih (.mul next) b r1 hb
            have h2 := ih (.add_loop _ r1) n r hk
            simp only [Call.consumes, Call.token, List.length_cons] at h1 h2 ⊢
            omega
          · simp only [Res.ok.injEq, Prod.mk.injEq] at h
            obtain ⟨rfl, rfl⟩ := h
            simp [Call.consumes, Call.token]
    | mul token =>
      simp only [Call.run] at h
      rw [mul_succ] at h
      obtain ⟨⟨a, r1⟩, ha, hk⟩ := Res.bind_eq_ok h
      have h1 := ih (.unary token) a r1 ha
      have h2 := ih (.mul_loop a r1) n r hk
      simp only [Call.consumes, Call.token] at h1 h2 ⊢
      omega
    | mul_loop node token =>
      simp only [Call.run] at h
      cases token with
      | nil => rw [mul_loop_nil] at h; cases h
      | cons t next =>
        rw [mul_loop_cons] at h
        split at h
        · obtain ⟨⟨b, r1⟩, hb, hk⟩ := Res.bind_eq_ok h
          have h1 := ih (.unary next) b r1 hb
          have h2 := ih (.mul_loop _ r1) n r hk
          simp only [Call.consumes, Call.token, List.length_cons] at h1 h2 ⊢
          omega
        · split at h
          · obtain ⟨⟨b, r1⟩, hb, hk⟩ := Res.bind_eq_ok h
            have h1 := ih (.unary next) b r1 hb
            have h2 := ih (.mul_loop _ r1) n r hk
            simp only [Call.consumes, Call.token, List.length_cons] at h1 h2 ⊢
            omega
          · simp only [Res.ok.injEq, Prod.mk.injEq] at h
            obtain ⟨rfl, rfl⟩ := h
            simp [Call.consumes, Call.token]
    | unary token =>
      simp only [Call.run] at h
      cases token with
      | nil => rw [unary_nil] at h; cases h
      | cons t next =>
        rw [unary_cons] at h
        split at h
        · have h1 := ih (.term next) n r h
          simp only [Call.consumes, Call.token, List.length_cons] at h1 ⊢
          omega
        · split at h
          · obtain ⟨⟨a, r1⟩, ha, hk⟩ := Res.bind_eq_ok h
            have h1 := ih (.term next) a r1 ha
            simp only [Res.ok.injEq, Prod.mk.injEq] at hk
            obtain ⟨rfl, rfl⟩ := hk
            simp only [Call.consumes, Call.token, List.length_cons] at h1 ⊢
            omega
          · exact ih (.term (t :: next)) n r h
    | term token =>
      simp only [Call.run] at h
      cases token with
      | nil => rw [term_nil] at h; cases h
      | cons t next =>
        rw [term_cons] at h
        split at h
        · obtain ⟨⟨a, r1⟩, ha, hk⟩ := Res.bind_eq_ok h
          have h1 := ih (.expr next) a r1 ha
          obtain ⟨tk, htk, hk2⟩ := Res.bind_eq_ok hk
          simp only [Res.ok.injEq, Prod.mk.injEq] at hk2
          obtain ⟨rfl, rfl⟩ := hk2
          cases r1 with
          | nil => simp [expect] at htk
          | cons rp r2 =>
            simp only [] at htk
            rw [expect_cons] at htk
            split at htk
            · simp only [Res.ok.injEq] at htk
              subst htk
              simp only [Call.consumes, Call.token, List.length_cons] at h1 ⊢
              omega
            · cases htk
        · split at h
          · simp only [Res.ok.injEq, Prod.mk.injEq] at h
            obtain ⟨rfl, rfl⟩ := h
            simp [Call.consumes, Call.token]
          · cases h

end NineCC


namespace NineCC

open TokenKind NodeKind Node

/-! ## Enough fuel -/

theorem bind_ne_timeout {α β : Type} {x : Res α} {k : α → Res β}
    (hx : x ≠ Res.timeout) (hk : ∀ a, x = Res.ok a → k a ≠ Res.timeout) :
    x.bind k ≠ Res.timeout := by
  cases x with
  | ok a => exact hk a rfl
  | fatal loc fmt => simp
  | fault => simp
  | timeout => exact absurd rfl hx

theorem run_terminates (f : Nat) (c : Call) (hf : c.need ≤ f) : c.run f ≠ Res.timeout := by
  induction f generalizing c with
  | zero => simp [Call.need] at hf
  | succ f ih =>
    cases c with
    | expr token =>
      simp only [Call.run]
      rw [expr_succ]
      simp only [Call.need, Call.level, Call.token] at hf
      refine bind_ne_timeout (ih (.equality token) (by simp [Call.need, Call.level, Call.token]; omega)) ?_
      intro a ha
      have h1 := run_length f (.equality token) a.1 a.2 ha
      simp only [Call.consumes, Call.token] at h1
      exact ih (.expr_loop a.1 a.2) (by simp [Call.need, Call.level, Call.token]; omega)
    | expr_loop node token =>
      simp only [Call.run]
      simp only [Call.need, Call.level, Call.token] at hf
      cases token with
      | nil => rw [expr_loop_nil]; simp
      | cons t next =>
        simp only [List.length_cons] at hf
        rw [expr_loop_cons]
        split
        · refine bind_ne_timeout (ih (.mul next) (by simp [Call.need, Call.level, Call.token]; omega)) ?_
          intro a ha
          have h1 := run_length f (.mul next) a.1 a.2 ha
          simp only [Call.consumes, Call.token] at h1
          exact ih (.expr_loop _ a.2) (by simp [Call.need, Call.level, Call.token]; omega)
        · split
          · refine bind_ne_timeout (ih (.mul next) (by simp [Call.need, Call.level, Call.token]; omega)) ?_
            intro a ha
            have h1 := run_length f (.mul next) a.1 a.2 ha
            simp only [Call.consumes, Call.token] at h1
            exact ih (.expr_loop _ a.2) (by simp [Call.need, Call.level, Call.token]; omega)
          · simp
    | equality token =>
      simp only [Call.run]
      rw [equality_succ]
      simp only [Call.need, Call.level, Call.token] at hf
      exact ih (.relational token) (by simp [Call.need, Call.level, Call.token]; omega)
    | relational token =>
      simp only [Call.run]
      rw [relational_succ]
      simp only [Call.need, Call.level, Call.token] at hf
      exact ih (.add token) (by simp [Call.need, Call.level, Call.token]; omega)
    | add token =>
      simp only [Call.run]
      rw [add_succ]
      simp only [Call.need, Call.level, Call.token] at hf
      refine bind_ne_timeout (ih (.mul token) (by simp [Call.need, Call.level, Call.token]; omega)) ?_
      intro a ha
      have h1 := run_length f (.mul token) a.1 a.2 ha
      simp only [Call.consumes, Call.token] at h1
      exact ih (.add_loop a.1 a.2) (by simp [Call.need, Call.level, Call.token]; omega)
    | add_loop node token =>
      simp only [Call.run]
      simp only [Call.need, Call.level, Call.token] at hf
      cases token with
      | nil => rw [add_loop_nil]; simp
      | cons t next =>
        simp only [List.length_cons] at hf
        rw [add_loop_cons]
        split
        · refine bind_ne_timeout (ih (.mul next) (by simp [Call.need, Call.level, Call.token]; omega)) ?_
          intro a ha
          have h1 := run_length f (.mul next) a.1 a.2 ha
          simp only [Call.consumes, Call.token] at h1
          exact ih (.add_loop _ a.2) (by simp [Call.need, Call.level, Call.token]; omega)
        · split
          · refine bind_ne_timeout (ih (.mul next) (by simp [Call.need, Call.level, Call.token]; omega)) ?_
            intro a ha
            have h1 := run_length f (.mul next) a.1 a.2 ha
            simp only [Call.consumes, Call.token] at h1
            exact ih (.add_loop _ a.2) (by simp [Call.need, Call.level, Call.token]; omega)
          · simp
    | mul token =>
      simp only [Call.run]
      rw [mul_succ]
      simp only [Call.need, Call.level, Call.token] at hf
      refine bind_ne_timeout (ih (.unary token) (by simp [Call.need, Call.level, Call.token]; omega)) ?_
      intro a ha
      have h1 := run_length f (.unary token) a.1 a.2 ha
      simp only [Call.consumes, Call.token] at h1
      exact ih (.mul_loop a.1 a.2) (by simp [Call.need, Call.level, Call.token]; omega)
    | mul_loop node token =>
      simp only [Call.run]
      simp only [Call.need, Call.level, Call.token] at hf
      cases token with
      | nil => rw [mul_loop_nil]; simp
      | cons t next =>
        simp only [List.length_cons] at hf
        rw [mul_loop_cons]
        split
        · refine bind_ne_timeout (ih (.unary next) (by simp [Call.need, Call.level, Call.token]; omega)) ?_
          intro a ha
          have h1 := run_length f (.unary next) a.1 a.2 ha
          simp only [Call.consumes, Call.token] at h1
          exact ih (.mul_loop _ a.2) (by simp [Call.need, Call.level, Call.token]; omega)
        · split
          · refine bind_ne_timeout (ih (.unary next) (by simp [Call.need, Call.level, Call.token]; omega)) ?_
            intro a ha
            have h1 := run_length f (.unary next) a.1 a.2 ha
            simp only [Call.consumes, Call.token] at h1
            exact ih (.mul_loop _ a.2) (by simp [Call.need, Call.level, Call.token]; omega)
          · simp
    | unary token =>
      simp only [Call.run]
      simp only [Call.need, Call.level, Call.token] at hf
      cases token with
      | nil => rw [unary_nil]; simp
      | cons t next =>
        simp only [List.length_cons] at hf
        rw [unary_cons]
        split
        · exact ih (.term next) (by simp [Call.need, Call.level, Call.token]; omega)
        · split
          · exact bind_ne_timeout
              (ih (.term next) (by simp [Call.need, Call.level, Call.token]; omega))
              (fun a _ => by simp)
          · exact ih (.term (t :: next)) (by simp [Call.need, Call.level, Call.token]; omega)
    | term token =>
      simp only [Call.run]
      simp only [Call.need, Call.level, Call.token] at hf
      cases token with
      | nil => rw [term_nil]; simp
      | cons t next =>
        simp only [List.length_cons] at hf
        rw [term_cons]
        split
        · refine bind_ne_timeout
            (ih (.expr next) (by simp [Call.need, Call.level, Call.token]; omega)) ?_
          intro a _
          cases h2 : a.2 with
          | nil => simp [expect]
          | cons rp r2 =>
            rw [expect_cons]
            split <;> simp
        · split <;> simp

/-- From the sufficient fuel on, the result of a call does not depend on the fuel. -/
theorem run_stable (f : Nat) (c : Call) (hf : c.need ≤ f) : c.run f = c.run c.need :=
  run_mono c.need f c hf (run_terminates c.need c (Nat.le_refl _))

/-- A result obtained with any fuel is the result with the sufficient fuel. -/
theorem run_need (f : Nat) (c : Call) (h : c.run f ≠ Res.timeout) : c.run c.need = c.run f := by
  rcases Nat.le_total f c.need with hle | hle
  · exact run_mono f c.need c hle h
  · exact (run_stable f c hle).symm

theorem expr_need (token : List Token) : (Call.expr token).need = parse_fuel token := by
  simp [Call.need, Call.level, Call.token, parse_fuel]

/-- A result of `expr` obtained with any fuel is the result the driver gets. -/
theorem expr_parse_fuel (f : Nat) (token : List Token) (res : Res (Node × List Token))
    (h : expr f token = res) (hres : res ≠ Res.timeout) :
    expr (parse_fuel token) token = res := by
  have := run_need f (.expr token) (by simpa [Call.run, h] using hres)
  rw [expr_need] at this
  simpa [Call.run, h] using this

/-! ## The cursor stays on the token list -/

theorem HasEof.tail {t : Token} {next : List Token} (h : HasEof (t :: next))
    (ht : t.kind ≠ TK_EOF) : HasEof next := by
  obtain ⟨e, he, hk⟩ := h
  rcases List.mem_cons.mp he with rfl | he
  · exact absurd hk ht
  · exact ⟨e, he, hk⟩

theorem HasEof.tail_sym {op : List Char} {t : Token} {next : List Token}
    (h : HasEof (t :: next)) (ht : sym op t = true) : HasEof next :=
  h.tail (by rw [sym_kind ht]; decide)

theorem HasEof.ne_nil {token : List Token} (h : HasEof token) : token ≠ [] := by
  obtain ⟨e, he, _⟩ := h
  exact List.ne_nil_of_mem he

theorem bind_no_fault {α β : Type} {x : Res α} {k : α → Res β} {P : α → Prop} {Q : β → Prop}
    (hx : x ≠ Res.fault ∧ ∀ a, x = Res.ok a → P a)
    (hk : ∀ a, P a → (k a ≠ Res.fault ∧ ∀ b, k a = Res.ok b → Q b)) :
    x.bind k ≠ Res.fault ∧ ∀ b, x.bind k = Res.ok b → Q b := by
  cases x with
  | ok a => exact hk a (hx.2 a rfl)
  | fatal loc fmt => simp
  | fault => exact absurd rfl hx.1
  | timeout => simp

theorem run_no_fault (f : Nat) (c : Call) (h : HasEof c.token) :
    c.run f ≠ Res.fault ∧ ∀ b, c.run f = Res.ok b → HasEof b.2 := by
  induction f generalizing c with
  | zero => rw [run_zero]; simp
  | succ f ih =>
    cases c with
    | expr token =>
      simp only [Call.run]
      rw [expr_succ]
      exact bind_no_fault (ih (.equality token) h) (fun a ha => ih (.expr_loop a.1 a.2) ha)
    | expr_loop node token =>
      simp only [Call.run]
      simp only [Call.token] at h
      cases token with
      | nil => exact absurd rfl h.ne_nil
      | cons t next =>
        rw [expr_loop_cons]
        split
        · rename_i hs
          exact bind_no_fault (ih (.mul next) (h.tail_sym hs))
            (fun a ha => ih (.expr_loop _ a.2) ha)
        · split
          · rename_i hs
            exact bind_no_fault (ih (.mul next) (h.tail_sym hs))
              (fun a ha => ih (.expr_loop _ a.2) ha)
          · refine ⟨by simp, ?_⟩
            intro b hb
            simp only [Res.ok.injEq] at hb
            subst hb
            exact h
    | equality token =>
      simp only [Call.run]
      rw [equality_succ]
      exact ih (.relational token) h
    | relational token =>
      simp only [Call.run]
      rw [relational_succ]
      exact ih (.add token) h
    | add token =>
      simp only [Call.run]
      rw [add_succ]
      exact bind_no_fault (ih (.mul token) h) (fun a ha => ih (.add_loop a.1 a.2) ha)
    | add_loop node token =>
      simp only [Call.run]
      simp only [Call.token] at h
      cases token with
      | nil => exact absurd rfl h.ne_nil
      | cons t next =>
        rw [add_loop_cons]
        split
        · rename_i hs
          exact bind_no_fault (ih (.mul next) (h.tail_sym hs))
            (fun a ha => ih (.add_loop _ a.2) ha)
        · split
          · rename_i hs
            exact bind_no_fault (ih (.mul next) (h.tail_sym hs))
              (fun a ha => ih (.add_loop _ a.2) ha)
          · refine ⟨by simp, ?_⟩
            intro b hb
            simp only [Res.ok.injEq] at hb
            subst hb
            exact h
    | mul token =>
      simp only [Call.run]
      rw [mul_succ]
      exact bind_no_fault (ih (.unary token) h) (fun a ha => ih (.mul_loop a.1 a.2) ha)
    | mul_loop node token =>
      simp only [Call.run]
      simp only [Call.token] at h
      cases token with
      | nil => exact absurd rfl h.ne_nil
      | cons t next =>
        rw [mul_loop_cons]
        split
        · rename_i hs
          exact bind_no_fault (ih (.unary next) (h.tail_sym hs))
            (fun a ha => ih (.mul_loop _ a.2) ha)
        · split
          · rename_i hs
            exact bind_no_fault (ih (.unary next) (h.tail_sym hs))
              (fun a ha => ih (.mul_loop _ a.2) ha)
          · refine ⟨by simp, ?_⟩
            intro b hb
            simp only [Res.ok.injEq] at hb
            subst hb
            exact h
    | unary token =>
      simp only [Call.run]
      simp only [Call.token] at h
      cases token with
      | nil => exact absurd rfl h.ne_nil
      | cons t next =>
        rw [unary_cons]
        split
        · rename_i hs
          exact ih (.term next) (h.tail_sym hs)
        · split
          · rename_i hs
            refine bind_no_fault (ih (.term next) (h.tail_sym hs)) ?_
            intro a ha
            refine ⟨by simp, ?_⟩
            intro b hb
            simp only [Res.ok.injEq] at hb
            subst hb
            exact ha
          · exact ih (.term (t :: next)) h
    | term token =>
      simp only [Call.run]
      simp only [Call.token] at h
      cases token with
      | nil => exact absurd rfl h.ne_nil
      | cons t next =>
        rw [term_cons]
        split
        · rename_i hs
          refine bind_no_fault (ih (.expr next) (h.tail_sym hs)) ?_
          intro a ha
          cases h2 : a.2 with
          | nil => rw [h2] at ha; exact absurd rfl ha.ne_nil
          | cons rp r2 =>
            rw [h2] at ha
            rw [expect_cons]
            split
            · rename_i hrp
              refine ⟨by simp, ?_⟩
              intro b hb
              simp only [Res.bind_ok, Res.ok.injEq] at hb
              subst hb
              exact ha.tail_sym hrp
            · simp
        · split
          · rename_i hk
            refine ⟨by simp, ?_⟩
            intro b hb
            simp only [Res.ok.injEq] at hb
            subst hb
            exact h.tail (by rw [hk]; decide)
          · simp

end NineCC


namespace NineCC

open TokenKind NodeKind Node

/-! ## Results for all sufficiently large fuel -/

theorem Ev.of_succ {α : Type} {g : Nat → Res α} {res : Res α}
    (h : Ev (fun f => g (f + 1)) res) : Ev g res := by
  obtain ⟨k, hk⟩ := h
  refine ⟨k + 1, fun f hf => ?_⟩
  obtain ⟨f, rfl⟩ : ∃ f0, f = f0 + 1 := ⟨f - 1, by omega⟩
  exact hk f (by omega)

theorem Ev.const {α : Type} (res : Res α) : Ev (fun _ => res) res :=
  ⟨0, fun _ _ => rfl⟩

theorem Ev.seq {α β : Type} {g : Nat → Res α} {k : Nat → α → Res β} {x : Res α}
    {res : Res β} (hg : Ev g x) (hk : Ev (fun f => x.bind (k f)) res) :
    Ev (fun f => (g f).bind (k f)) res := by
  obtain ⟨k1, h1⟩ := hg
  obtain ⟨k2, h2⟩ := hk
  refine ⟨max k1 k2, fun f hf => ?_⟩
  simp only [h1 f (le_of_max_le_left hf)]
  exact h2 f (le_of_max_le_right hf)

theorem Ev.unique {α : Type} {g : Nat → Res α} {x y : Res α} (hx : Ev g x) (hy : Ev g y) :
    x = y := by
  obtain ⟨k1, h1⟩ := hx
  obtain ⟨k2, h2⟩ := hy
  rw [← h1 (max k1 k2) (le_max_left _ _), ← h2 (max k1 k2) (le_max_right _ _)]

/-- The driver's result of `expr` is the result for all sufficiently large fuel. -/
theorem Ev.parse_result {token : List Token} {res : Res (Node × List Token)}
    (h : Ev (fun f => expr f token) res) : expr (parse_fuel token) token = res := by
  obtain ⟨k, hk⟩ := h
  have h1 := run_stable (max k (parse_fuel token)) (.expr token)
    (by rw [expr_need]; exact le_max_right _ _)
  rw [expr_need] at h1
  simp only [Call.run] at h1
  rw [← h1]
  exact hk _ (le_max_left _ _)

theorem ev_of_run {c : Call} {f : Nat} {res : Res (Node × List Token)}
    (h : c.run f = res) (hres : res ≠ Res.timeout) : Ev (fun g => c.run g) res := by
  refine ⟨f, fun g hg => ?_⟩
  rw [← h]
  exact run_mono f g c hg (by rw [h]; exact hres)

/-! ## `expr` is `add` -/

theorem expr_eq_add_fuel (f : Nat) (token : List Token) :
    expr (f + 3) token = add f token := by
  rw [expr_succ, equality_succ, relational_succ]
  cases h : add f token with
  | ok a =>
    obtain ⟨n, r⟩ := a
    obtain ⟨pre, _, _, hno⟩ := run_sound f (.add token) n r h
    cases r with
    | nil => exact hno.elim
    | cons t next =>
      simp only [Res.bind_ok]
      rw [expr_loop_cons]
      simp [hno.1, hno.2.1]
  | fatal loc fmt => rfl
  | fault => rfl
  | timeout => rfl

theorem Ev.expr_of_add {token : List Token} {res : Res (Node × List Token)}
    (h : Ev (fun f => add f token) res) : Ev (fun f => expr f token) res := by
  refine Ev.of_succ (Ev.of_succ (Ev.of_succ ?_))
  simp only [expr_eq_add_fuel]
  exact h

/-! ## The parser on a phrase of the grammar -/

theorem ev_mul_loop_stop (n : Node) (r : List Token) (h : NoMulOp r) :
    Ev (fun f => mul_loop f n r) (Res.ok (n, r)) := by
  cases r with
  | nil => exact h.elim
  | cons t next =>
    refine Ev.of_succ ?_
    simp only [mul_loop_cons, h.1, h.2, Bool.false_eq_true, if_false]
    exact Ev.const _

theorem ev_add_loop_stop (n : Node) (t : Token) (next : List Token)
    (h1 : sym ['+'] t = false) (h2 : sym ['-'] t = false) :
    Ev (fun f => add_loop f n (t :: next)) (Res.ok (n, t :: next)) := by
  refine Ev.of_succ ?_
  simp only [add_loop_cons, h1, h2, Bool.false_eq_true, if_false]
  exact Ev.const _

theorem Parses.primary_head {pre : List Token} {n : Node} (h : Parses .primary pre n) :
    ∃ t rest, pre = t :: rest ∧ sym ['+'] t = false ∧ sym ['-'] t = false := by
  cases h with
  | num t hk =>
    exact ⟨t, [], rfl, sym_of_kind (by rw [hk]; decide), sym_of_kind (by rw [hk]; decide)⟩
  | paren lp rp e n hlp hrp he =>
    exact ⟨lp, _, rfl, sym_unique hlp (by decide), sym_unique hlp (by decide)⟩

theorem parses_complete {lvl : Level} {pre : List Token} {n : Node}
    (h : Parses lvl pre n) : Complete lvl pre n := by
  induction h with
  | num t hk =>
    intro r
    refine Ev.of_succ ?_
    simp only [List.singleton_append, term_cons, @sym_of_kind ['('] t
      (by rw [hk]; decide), hk, Bool.false_eq_true, if_false, if_true]
    exact Ev.const _
  | paren lp rp e n hlp hrp _ ih =>
    intro r
    have h1 : Ev (fun f => add f (e ++ rp :: r)) (Res.ok (n, rp :: r)) :=
      ih (rp :: r) _ ⟨sym_unique hrp (by decide), sym_unique hrp (by decide)⟩
        (ev_add_loop_stop n rp r (sym_unique hrp (by decide)) (sym_unique hrp (by decide)))
    have h2 := Ev.expr_of_add h1
    refine Ev.of_succ ?_
    simp only [List.cons_append, List.append_assoc, List.singleton_append, term_cons, hlp,
      if_true]
    refine Ev.seq h2 ?_
    simp only [Res.bind_ok, expect_cons, hrp, if_true]
    exact Ev.const _
  | primary p n hp ih =>
    intro r
    obtain ⟨t, rest, rfl, h1, h2⟩ := hp.primary_head
    refine Ev.of_succ ?_
    simp only [List.cons_append, unary_cons, h1, h2, Bool.false_eq_true, if_false]
    exact ih r
  | plus s p n hs _ ih =>
    intro r
    refine Ev.of_succ ?_
    simp only [List.cons_append, unary_cons, hs, if_true]
    exact ih r
  | minus s p n hs _ ih =>
    intro r
    refine Ev.of_succ ?_
    simp only [List.cons_append, unary_cons, sym_unique hs (by decide : '-' ≠ '+'), hs,
      Bool.false_eq_true, if_false, if_true]
    refine Ev.seq (ih r) ?_
    simp only [Res.bind_ok]
    exact Ev.const _
  | unary u n _ ih =>
    intro r res hres
    refine Ev.of_succ ?_
    simp only [mul_succ]
    refine Ev.seq (ih r) ?_
    simpa only [Res.bind_ok] using hres
  | times o m u a b ho _ _ ihm ihu =>
    intro r res hres
    rw [List.append_assoc, List.cons_append]
    refine ihm _ _ (Ev.of_succ ?_)
    simp only [mul_loop_cons, ho, if_true]
    refine Ev.seq (ihu r) ?_
    simpa only [Res.bind_ok] using hres
  | over o m u a b ho _ _ ihm ihu =>
    intro r res hres
    rw [List.append_assoc, List.cons_append]
    refine ihm _ _ (Ev.of_succ ?_)
    simp only [mul_loop_cons, sym_unique ho (by decide : '/' ≠ '*'), ho, Bool.false_eq_true,
      if_false, if_true]
    refine Ev.seq (ihu r) ?_
    simpa only [Res.bind_ok] using hres
  | multiplicative m n _ ih =>
    intro r res hr hres
    refine Ev.of_succ ?_
    simp only [add_succ]
    refine Ev.seq (ih r _ (ev_mul_loop_stop n r hr)) ?_
    simpa only [Res.bind_ok] using hres
  | sum o a m x y ho _ _ iha ihm =>
    intro r res hr hres
    rw [List.append_assoc, List.cons_append]
    refine iha _ _ ⟨sym_unique ho (by decide), sym_unique ho (by decide)⟩ (Ev.of_succ ?_)
    simp only [add_loop_cons, ho, if_true]
    refine Ev.seq (ihm r _ (ev_mul_loop_stop y r hr)) ?_
    simpa only [Res.bind_ok] using hres
  | difference o a m x y ho _ _ iha ihm =>
    intro r res hr hres
    rw [List.append_assoc, List.cons_append]
    refine iha _ _ ⟨sym_unique ho (by decide), sym_unique ho (by decide)⟩ (Ev.of_succ ?_)
    simp only [add_loop_cons, sym_unique ho (by decide : '-' ≠ '+'), ho, Bool.false_eq_true,
      if_false, if_true]
    refine Ev.seq (ihm r _ (ev_mul_loop_stop y r hr)) ?_
    simpa only [Res.bind_ok] using hres

/-- A phrase of the additive layer followed by a token that is none of `+ - * /`:
`expr` returns its tree with the cursor on that token. -/
theorem parses_expr {pre : List Token} {n : Node} (h : Parses .additive pre n)
    (r : List Token) (hr : NoOp r) :
    expr (parse_fuel (pre ++ r)) (pre ++ r) = Res.ok (n, r) := by
  cases r with
  | nil => exact hr.elim
  | cons t next =>
    exact Ev.parse_result (Ev.expr_of_add
      (parses_complete h (t :: next) _ ⟨hr.2.2.1, hr.2.2.2⟩
        (ev_add_loop_stop n t next hr.1 hr.2.1)))

/-- A successful parse, seen from the driver: the consumed tokens form a phrase
of the additive layer, and the cursor is on a token that is none of `+ - * /`. -/
theorem expr_sound {token : List Token} {f : Nat} {n : Node} {r : List Token}
    (h : expr f token = Res.ok (n, r)) :
    ∃ pre, token = pre ++ r ∧ Parses .additive pre n ∧ NoOp r :=
  run_sound f (.expr token) n r h

end NineCC


namespace NineCC

open TokenKind NodeKind Node

/-! ## Claims about the token cursor and the tokenizer -/

theorem to_size_t_eq_iff (i : Int) (n : Nat) (hn : n < 9223372036854775808)
    (hi : -2147483648 ≤ i ∧ i < 2147483648) : n = to_size_t i ↔ i = (n : Int) := by
  unfold to_size_t
  omega

/-- C8: on a token, `consume op` returns true and moves the cursor to the next
token exactly when the token is a reserved symbol whose stored length is the
length of `op` and whose text is `op`; in every other case it returns false and
leaves the cursor where it was.  The hypotheses say that `op` is a C string and
that the stored length is an `int`. -/
theorem consume_contract (op : List Char) (t : Token) (next : List Token)
    (hop : op.length < 9223372036854775808)
    (hlen : -2147483648 ≤ t.len ∧ t.len < 2147483648) :
    consume op (t :: next) =
      if t.kind = TK_RESERVED ∧ t.len = (op.length : Int) ∧ t.str.take op.length = op then
        Res.ok (true, next)
      else Res.ok (false, t :: next) := by
  rw [consume_cons]
  have key : sym op t = true ↔
      (t.kind = TK_RESERVED ∧ t.len = (op.length : Int) ∧ t.str.take op.length = op) := by
    simp only [sym, memcmp, Bool.and_eq_true, decide_eq_true_eq, Bool.not_eq_true',
      bne_eq_false_iff_eq, to_size_t_eq_iff t.len op.length hop hlen]
    constructor
    · rintro ⟨⟨h1, h2⟩, h3⟩
      have h4 : to_size_t t.len = op.length :=
        ((to_size_t_eq_iff t.len op.length hop hlen).mpr h2).symm
      rw [h4, List.take_length] at h3
      exact ⟨h1, h2, h3⟩
    · rintro ⟨h1, h2, h3⟩
      have h4 : to_size_t t.len = op.length :=
        ((to_size_t_eq_iff t.len op.length hop hlen).mpr h2).symm
      rw [h4, List.take_length]
      exact ⟨⟨h1, h2⟩, h3⟩
  by_cases h : sym op t = true
  · rw [if_pos h, if_pos (key.mp h)]
  · rw [if_neg h, if_neg (fun hc => h (key.mpr hc))]

theorem consume_contract_witness :
    consume ['+'] ({ kind := TK_RESERVED, val := 0, str := ['+', '1'], len := 1 } :: []) =
      if ({ kind := TK_RESERVED, val := 0, str := ['+', '1'], len := 1 } : Token).kind
            = TK_RESERVED ∧
          ({ kind := TK_RESERVED, val := 0, str := ['+', '1'], len := 1 } : Token).len
            = ((['+'] : List Char).length : Int) ∧
          ({ kind := TK_RESERVED, val := 0, str := ['+', '1'], len := 1 } : Token).str.take
            (['+'] : List Char).length = ['+'] then
        Res.ok (true, [])
      else
        Res.ok (false, [{ kind := TK_RESERVED, val := 0, str := ['+', '1'], len := 1 }]) :=
  consume_contract ['+'] { kind := TK_RESERVED, val := 0, str := ['+', '1'], len := 1 } []
    (by decide) (by decide)

theorem tokenize_null_ne_fatal (p : List Char) (loc : List Char) (fmt : String) :
    tokenize [] p ≠ Res.fatal loc fmt := by
  generalize h : p.length = n
  induction n using Nat.strong_induction_on generalizing p with
  | _ n ih =>
    cases p with
    | nil => simp [tokenize_nil]
    | cons c cs =>
      subst h
      have key : ∀ q : List Char, q.length ≤ cs.length →
          ∀ (k : List Token → Res (List Token)), (∀ r, k r ≠ Res.fatal loc fmt) →
          (tokenize [] q).bind k ≠ Res.fatal loc fmt := by
        intro q hq k hk
        have := ih q.length (by simp; omega) q rfl
        cases hx : tokenize [] q with
        | ok a => simpa using hk a
        | fatal l m => rw [hx] at this; simpa using this
        | fault => simp
        | timeout => simp
      rw [tokenize_cons]
      split
      · exact ih cs.length (by simp) cs rfl
      · split
        · exact key _ (by simp) _ (by simp)
        · split
          · exact key _ (by simp) _ (by simp)
          · split
            · rename_i hd
              exact key _ (strtol_length_lt c cs hd) _ (by simp)
            · simp

/-- C10: on the source `1 $ 2` the compiler does not report the offset of the
`$`: the error branch of `tokenize` reads `token->str` while the global `token`
is still `NULL`, so the process faults; `tokenize` as `main` calls it never
produces a diagnostic. -/
theorem tokenize_unscannable_fault :
    compile ['1', ' ', '$', ' ', '2'] = Outcome.segfault ∧
    tokenize [] ['1', ' ', '$', ' ', '2'] = Res.fault ∧
    ∀ p loc fmt, tokenize [] p ≠ Res.fatal loc fmt :=
  ⟨by decide, by decide, tokenize_null_ne_fatal⟩

/-- C13: on a run of digits `d` followed by a text `r` that does not start with a
digit, the scanner emits one integer-literal token for `d`, whose value is the
base-10 value of `d` when that is below `2^31`, and goes on with `r`: the tokens
of `r` follow, each at its offset in `r` plus the length of `d`. -/
theorem literal_scanning (token : List Token) (d r : List Char) (ts : List Token)
    (hd : d ≠ []) (hdig : ∀ c ∈ d, isdigit c = true)
    (hr : ∀ c ∈ r.head?, isdigit c = false) (h : tokenize token r = Res.ok ts) :
    tokenize token (d ++ r) = Res.ok
      ({ kind := TK_NUM
         val := to_int (if LONG_MAX < (decimal d : Int) then LONG_MAX else (decimal d : Int))
         str := d ++ r
         len := -1 } :: ts) ∧
    (decimal d < 2147483648 →
      to_int (if LONG_MAX < (decimal d : Int) then LONG_MAX else (decimal d : Int))
        = (decimal d : Int)) ∧
    error_pos (d ++ r) (d ++ r) = 0 ∧
    ∀ t ∈ ts, error_pos (d ++ r) t.str = (d.length : Int) + error_pos r t.str := by
  refine ⟨tokenize_digits token d r ts hd hdig hr h, to_int_small _, ?_, ?_⟩
  · simp [error_pos]
  · intro t _
    simp only [error_pos, List.length_append, Nat.cast_add]
    ring

theorem literal_scanning_witness :
    tokenize [] (['1', '2'] ++ ['+', '3']) = Res.ok
      ({ kind := TK_NUM
         val := to_int (if LONG_MAX < (decimal ['1', '2'] : Int) then LONG_MAX
                  else (decimal ['1', '2'] : Int))
         str := ['1', '2'] ++ ['+', '3']
         len := -1 } ::
        [new_token TK_RESERVED ['+', '3'] 1,
         { kind := TK_NUM, val := 3, str := ['3'], len := -1 },
         new_token TK_EOF [] (-2)]) ∧
    (decimal ['1', '2'] < 2147483648 →
      to_int (if LONG_MAX < (decimal ['1', '2'] : Int) then LONG_MAX
        else (decimal ['1', '2'] : Int)) = (decimal ['1', '2'] : Int)) ∧
    error_pos (['1', '2'] ++ ['+', '3']) (['1', '2'] ++ ['+', '3']) = 0 ∧
    ∀ t ∈ [new_token TK_RESERVED ['+', '3'] 1,
         { kind := TK_NUM, val := 3, str := ['3'], len := -1 },
         new_token TK_EOF [] (-2)],
      error_pos (['1', '2'] ++ ['+', '3']) t.str
        = ((['1', '2'] : List Char).length : Int) + error_pos ['+', '3'] t.str :=
  literal_scanning [] ['1', '2'] ['+', '3'] _ (by decide) (by decide) (by decide) (by decide)

/-- C14: the integer-literal token of the source `12` does not record the length
2 of its digit run: `tokenize` stores `-1` in `len` for every integer literal
(and `-2` for the end-of-input token). -/
theorem number_token_len :
    tokenize [] ['1', '2'] = Res.ok
      [{ kind := TK_NUM, val := 12, str := ['1', '2'], len := -1 },
       { kind := TK_EOF, val := 0, str := [], len := -2 }] ∧
    ∀ token p ts, tokenize token p = Res.ok ts → ∀ t ∈ ts, t.kind = TK_NUM → t.len = -1 := by
  refine ⟨by decide, ?_⟩
  intro token p ts h t ht hk
  obtain ⟨init, rfl, hi⟩ := tokenize_shape token p ts h
  rcases List.mem_append.mp ht with ht | ht
  · rcases hi t ht with h1 | h1 | h1
    · rw [h1.1] at hk; cases hk
    · rw [h1.1] at hk; cases hk
    · exact h1.2.1
  · simp only [List.mem_singleton] at ht
    subst ht
    cases hk

/-- C15: on two consecutive `=` the scanner emits one equality token over both
and goes on two characters later: the tokens of the rest follow, each at its
offset in the rest plus 2.  A `=` that is not followed by `=` is not turned
into a token: the scan does not succeed. -/
theorem eq_longest_match (token : List Token) (r : List Char) (ts : List Token)
    (h : tokenize token r = Res.ok ts) :
    tokenize token ('=' :: '=' :: r) = Res.ok (new_token TK_EQ ('=' :: '=' :: r) 2 :: ts) ∧
    error_pos ('=' :: '=' :: r) ('=' :: '=' :: r) = 0 ∧
    (∀ t ∈ ts, error_pos ('=' :: '=' :: r) t.str = 2 + error_pos r t.str) ∧
    (∀ q : List Char, (∀ c ∈ q.head?, c ≠ '=') → ∀ ts2, tokenize token ('=' :: q) ≠ Res.ok ts2) := by
  refine ⟨?_, ?_, ?_, ?_⟩
  · rw [tokenize_cons]
    simp [isspace, starts_eq_eq, h]
  · simp [error_pos]
  · intro t _
    simp only [error_pos, List.length_cons, Nat.cast_add, Nat.cast_one]
    ring
  · intro q hq ts2
    rw [tokenize_cons]
    have h2 : starts_eq_eq ('=' :: q) = false := by
      cases q with
      | nil => rfl
      | cons b bs =>
        have := hq b (by simp)
        simp [starts_eq_eq, this]
    have h1 : isspace '=' = false := by decide
    have h3 : is_reserved_char '=' = false := by decide
    have h4 : isdigit '=' = false := by decide
    simp only [h1, h2, h3, h4, Bool.false_eq_true, if_false]
    cases token <;> simp [error_at]

theorem eq_longest_match_witness :
    tokenize [] ('=' :: '=' :: ['1']) = Res.ok (new_token TK_EQ ('=' :: '=' :: ['1']) 2 ::
      [{ kind := TK_NUM, val := 1, str := ['1'], len := -1 }, new_token TK_EOF [] (-2)]) ∧
    error_pos ('=' :: '=' :: ['1']) ('=' :: '=' :: ['1']) = 0 ∧
    (∀ t ∈ [{ kind := TK_NUM, val := 1, str := ['1'], len := -1 }, new_token TK_EOF [] (-2)],
      error_pos ('=' :: '=' :: ['1']) t.str = 2 + error_pos ['1'] t.str) ∧
    (∀ q : List Char, (∀ c ∈ q.head?, c ≠ '=') → ∀ ts2, tokenize [] ('=' :: q) ≠ Res.ok ts2) :=
  eq_longest_match [] ['1'] _ (by decide)

/-- C16: every token of a successful scan is a reserved symbol, an equality
operator, an integer literal or the end-of-input token, never `!=`, `<=` or
`>=`; a reserved symbol has length 1 and its text is one of `+ - * / ( ) < >`;
a token that starts at a `<` or a `>` is such a one-character reserved symbol. -/
theorem token_kinds_produced (token : List Token) (p : List Char) (ts : List Token)
    (h : tokenize token p = Res.ok ts) :
    ∀ t ∈ ts,
      (t.kind = TK_RESERVED ∨ t.kind = TK_EQ ∨ t.kind = TK_NUM ∨ t.kind = TK_EOF) ∧
      (t.kind ≠ TK_NQ ∧ t.kind ≠ TK_LE ∧ t.kind ≠ TK_GE) ∧
      (t.kind = TK_RESERVED → t.len = 1 ∧ ∃ c rest, t.str = c :: rest ∧ sym [c] t = true ∧
        (c = '+' ∨ c = '-' ∨ c = '*' ∨ c = '/' ∨ c = '(' ∨ c = ')' ∨ c = '<' ∨ c = '>')) ∧
      (∀ c ∈ t.str.head?, c = '<' ∨ c = '>' → t.kind = TK_RESERVED ∧ t.len = 1) := by
  obtain ⟨init, rfl, hi⟩ := tokenize_shape token p ts h
  intro t ht
  rcases List.mem_append.mp ht with ht | ht
  · rcases hi t ht with ⟨hk, hl, r, hs⟩ | ⟨hk, hl, c, r, hs, hc⟩ | ⟨hk, hl, c, r, hs, hc⟩
    · refine ⟨by simp [hk], by simp [hk], by simp [hk], ?_⟩
      intro c hc
      simp only [hs, List.head?_cons, Option.mem_def, Option.some.injEq] at hc
      subst hc
      intro h2
      rcases h2 with h2 | h2 <;> exact absurd h2 (by decide)
    · refine ⟨by simp [hk], by simp [hk], ?_, ?_⟩
      · intro _
        refine ⟨hl, c, r, hs, ?_, ?_⟩
        · simp [sym, hk, hl, hs, to_size_t, memcmp]
        · simp only [is_reserved_char, Bool.or_eq_true, decide_eq_true_eq] at hc
          tauto
      · intro _ _ _
        exact ⟨hk, hl⟩
    · refine ⟨by simp [hk], by simp [hk], by simp [hk], ?_⟩
      intro c2 hc2
      simp only [hs, List.head?_cons, Option.mem_def, Option.some.injEq] at hc2
      subst hc2
      intro h2
      rcases h2 with rfl | rfl <;> exact absurd hc (by decide)
  · simp only [List.mem_singleton] at ht
    subst ht
    simp [new_token]

theorem token_kinds_produced_witness :
    tokenize [] ['<'] = Res.ok [new_token TK_RESERVED ['<'] 1, new_token TK_EOF [] (-2)] ∧
    ∀ t ∈ [new_token TK_RESERVED ['<'] 1, new_token TK_EOF [] (-2)],
      (t.kind = TK_RESERVED ∨ t.kind = TK_EQ ∨ t.kind = TK_NUM ∨ t.kind = TK_EOF) ∧
      (t.kind ≠ TK_NQ ∧ t.kind ≠ TK_LE ∧ t.kind ≠ TK_GE) ∧
      (t.kind = TK_RESERVED → t.len = 1 ∧ ∃ c rest, t.str = c :: rest ∧ sym [c] t = true ∧
        (c = '+' ∨ c = '-' ∨ c = '*' ∨ c = '/' ∨ c = '(' ∨ c = ')' ∨ c = '<' ∨ c = '>')) ∧
      (∀ c ∈ t.str.head?, c = '<' ∨ c = '>' → t.kind = TK_RESERVED ∧ t.len = 1) :=
  ⟨by decide, token_kinds_produced [] ['<'] _ (by decide)⟩

end NineCC


namespace NineCC

open TokenKind NodeKind Node

/-! ## Code generator -/

theorem exec_append (a b : List Instr) (m : Machine) :
    exec (a ++ b) m = (exec a m).bind (exec b) := by
  induction a generalizing m with
  | nil => rfl
  | cons i rest ih =>
    simp only [List.cons_append, exec]
    cases i.step m with
    | none => rfl
    | some m1 => exact ih m1

theorem height_after_append (a b : List Instr) (h : Nat) :
    height_after (a ++ b) h = (height_after a h).bind (height_after b) := by
  induction a generalizing h with
  | nil => rfl
  | cons i rest ih =>
    simp only [List.cons_append, height_after]
    cases i.height h with
    | none => rfl
    | some h1 => exact ih h1

theorem wrap64_fits (x : Int) (h : fits64 x = true) : wrap64 x = x := by
  simp only [fits64, Bool.and_eq_true, decide_eq_true_eq] at h
  unfold wrap64
  omega

theorem cqo_dividend (a : Int) (h : fits64 a = true) :
    (if a < 0 then (-1 : Int) else 0) * 18446744073709551616 + a % 18446744073709551616
      = a := by
  simp only [fits64, Bool.and_eq_true, decide_eq_true_eq] at h
  split <;> omega

theorem cqo_dividend_ite (a : Int) (h : fits64 a = true) :
    (if a < 0 then (-18446744073709551616 : Int) else 0) + a % 18446744073709551616 = a := by
  simp only [fits64, Bool.and_eq_true, decide_eq_true_eq] at h
  split <;> omega

theorem no_trap_fits (n : Node) (h : no_trap n = true) : fits64 (eval n) = true := by
  cases n with
  | new_node_num v => simpa [no_trap, eval] using h
  | new_node k l r =>
    cases k <;> simp only [no_trap, Bool.or_eq_true, Bool.and_eq_true, decide_eq_true_eq] at h
    · exact (h.resolve_left (by decide)).1.2
    · exact (h.resolve_left (by decide)).1.2
    · exact (h.resolve_left (by decide)).1.2
    · exact (h.resolve_left (by decide)).1.2
    · simp [eval, fits64]

theorem gen_exec_stack (n : Node) (h : no_trap n = true) (m : Machine) :
    (exec (gen n) m).map Machine.stack = some (eval n :: m.stack) := by
  induction n generalizing m with
  | new_node_num v => rfl
  | new_node k l r ihl ihr =>
    by_cases hk : k = ND_NUM
    · subst hk
      rfl
    · simp only [no_trap, hk, decide_False, Bool.false_or, Bool.and_eq_true, Bool.or_eq_true,
        bne_iff_ne, ne_eq, decide_eq_true_eq] at h
      obtain ⟨⟨⟨hl, hr⟩, hfit⟩, hdiv⟩ := h
      obtain ⟨m1, hm1, hs1⟩ := Option.map_eq_some'.mp (ihl hl m)
      obtain ⟨m2, hm2, hs2⟩ := Option.map_eq_some'.mp (ihr hr m1)
      have hfl := no_trap_fits l hl
      have hfr := no_trap_fits r hr
      cases k with
      | ND_ADD =>
        simp only [eval] at hfit ⊢
        simp [gen, exec_append, hm1, hm2, exec, Instr.step, hs2, hs1, wrap64_fits _ hfit]
      | ND_SUB =>
        simp only [eval] at hfit ⊢
        simp [gen, exec_append, hm1, hm2, exec, Instr.step, hs2, hs1, wrap64_fits _ hfit]
      | ND_MUL =>
        simp only [eval] at hfit ⊢
        simp [gen, exec_append, hm1, hm2, exec, Instr.step, hs2, hs1, wrap64_fits _ hfit]
      | ND_DIV =>
        have hne : eval r ≠ 0 := by
          rcases hdiv with hdiv | hdiv
          · exact absurd rfl hdiv
          · exact hdiv
        simp only [eval] at hfit ⊢
        simp [gen, exec_append, hm1, hm2, exec, Instr.step, hs2, hs1, hne,
          cqo_dividend _ hfl, cqo_dividend_ite _ hfl, hfit]
      | ND_NUM => exact absurd rfl hk

theorem gen_exec (n : Node) (h : no_trap n = true) (m : Machine) :
    ∃ m1, exec (gen n) m = some m1 ∧ m1.stack = eval n :: m.stack :=
  Option.map_eq_some'.mp (gen_exec_stack n h m)

theorem gen_height (n : Node) (h : Nat) : height_after (gen n) h = some (h + 1) := by
  induction n generalizing h with
  | new_node_num v => rfl
  | new_node k l r ihl ihr =>
    cases k <;>
      simp [gen, height_after_append, ihl, ihr, height_after, Instr.height]

/-- The program that `main` prints for a tree without traps returns the value
of the tree. -/
theorem program_returns (n : Node) (h : no_trap n = true) (m : Machine) :
    (exec (gen n ++ epilogue) m).map Machine.rax = some (eval n) := by
  obtain ⟨m1, hm1, hs1⟩ := gen_exec n h m
  simp [exec_append, hm1, epilogue, exec, Instr.step, hs1]

theorem returns_of_compile (user_input : List Char) (n : Node)
    (hc : compile user_input = Outcome.success (prologue ++ (gen n ++ epilogue).map Instr.asm))
    (h : no_trap n = true) : Returns user_input (eval n) :=
  ⟨gen n ++ epilogue, hc, program_returns n h⟩

/-- C2: for a tree whose evaluation divides by no zero and overflows nowhere,
the code of `gen`, run on any machine state, leaves the value of the tree on
top of the unchanged stack and never pops below the starting height; for a
literal the code is one push, for a binary node it is the code of the left
subtree, the code of the right subtree, `pop rdi`, `pop rax`, the operator
and `push rax`. -/
theorem gen_correct (n : Node) (h : no_trap n = true) :
    (∀ m : Machine, ∃ m1, exec (gen n) m = some m1 ∧ m1.stack = eval n :: m.stack) ∧
    (∀ h0 : Nat, height_after (gen n) h0 = some (h0 + 1)) ∧
    (∀ v : Int, gen (new_node_num v) = [Instr.push v]) ∧
    (∀ l r : Node, gen (new_node ND_ADD l r) =
      gen l ++ gen r ++ [Instr.pop_rdi, Instr.pop_rax] ++ [Instr.add_rax_rdi]
        ++ [Instr.push_rax]) ∧
    (∀ l r : Node, gen (new_node ND_SUB l r) =
      gen l ++ gen r ++ [Instr.pop_rdi, Instr.pop_rax] ++ [Instr.sub_rax_rdi]
        ++ [Instr.push_rax]) ∧
    (∀ l r : Node, gen (new_node ND_MUL l r) =
      gen l ++ gen r ++ [Instr.pop_rdi, Instr.pop_rax] ++ [Instr.imul_rax_rdi]
        ++ [Instr.push_rax]) ∧
    (∀ l r : Node, gen (new_node ND_DIV l r) =
      gen l ++ gen r ++ [Instr.pop_rdi, Instr.pop_rax] ++ [Instr.cqo, Instr.idiv_rdi]
        ++ [Instr.push_rax]) :=
  ⟨gen_exec n h, gen_height n, fun _ => rfl, fun _ _ => rfl, fun _ _ => rfl, fun _ _ => rfl,
    fun _ _ => rfl⟩

theorem gen_correct_witness :
    (∀ m : Machine, ∃ m1,
      exec (gen (new_node ND_DIV (new_node_num 6) (new_node_num 3))) m = some m1 ∧
      m1.stack = eval (new_node ND_DIV (new_node_num 6) (new_node_num 3)) :: m.stack) ∧
    (∀ h0 : Nat,
      height_after (gen (new_node ND_DIV (new_node_num 6) (new_node_num 3))) h0
        = some (h0 + 1)) ∧
    (∀ v : Int, gen (new_node_num v) = [Instr.push v]) ∧
    (∀ l r : Node, gen (new_node ND_ADD l r) =
      gen l ++ gen r ++ [Instr.pop_rdi, Instr.pop_rax] ++ [Instr.add_rax_rdi]
        ++ [Instr.push_rax]) ∧
    (∀ l r : Node, gen (new_node ND_SUB l r) =
      gen l ++ gen r ++ [Instr.pop_rdi, Instr.pop_rax] ++ [Instr.sub_rax_rdi]
        ++ [Instr.push_rax]) ∧
    (∀ l r : Node, gen (new_node ND_MUL l r) =
      gen l ++ gen r ++ [Instr.pop_rdi, Instr.pop_rax] ++ [Instr.imul_rax_rdi]
        ++ [Instr.push_rax]) ∧
    (∀ l r : Node, gen (new_node ND_DIV l r) =
      gen l ++ gen r ++ [Instr.pop_rdi, Instr.pop_rax] ++ [Instr.cqo, Instr.idiv_rdi]
        ++ [Instr.push_rax]) :=
  gen_correct (new_node ND_DIV (new_node_num 6) (new_node_num 3)) (by decide)

end NineCC


namespace NineCC

open TokenKind NodeKind Node

/-! ## Claims about the parser -/

theorem noop_of_kind {t : Token} (r : List Token) (h : t.kind ≠ TK_RESERVED) : NoOp (t :: r) :=
  ⟨sym_of_kind h, sym_of_kind h, sym_of_kind h, sym_of_kind h⟩

theorem noop_eof {t : Token} (r : List Token) (h : t.kind = TK_EOF) : NoOp (t :: r) :=
  noop_of_kind r (by rw [h]; decide)

theorem Parses.primary_additive {p : List Token} {n : Node} (h : Parses .primary p n) :
    Parses .additive p n :=
  .multiplicative _ _ (.unary _ _ (.primary _ _ h))

theorem Parses.primary_multiplicative {p : List Token} {n : Node} (h : Parses .primary p n) :
    Parses .multiplicative p n :=
  .unary _ _ (.primary _ _ h)

theorem parses_additive_op {o : Token} {a m : List Token} {x y : Node}
    (ho : sym ['+'] o = true ∨ sym ['-'] o = true)
    (ha : Parses .additive a x) (hm : Parses .multiplicative m y) :
    Parses .additive (a ++ o :: m)
      (new_node (if sym ['+'] o = true then ND_ADD else ND_SUB) x y) := by
  by_cases h : sym ['+'] o = true
  · rw [if_pos h]
    exact .sum o a m x y h ha hm
  · rw [if_neg h]
    exact .difference o a m x y (ho.resolve_left h) ha hm

theorem parses_multiplicative_op {o : Token} {m u : List Token} {x y : Node}
    (ho : sym ['*'] o = true ∨ sym ['/'] o = true)
    (hm : Parses .multiplicative m x) (hu : Parses .unary u y) :
    Parses .multiplicative (m ++ o :: u)
      (new_node (if sym ['*'] o = true then ND_MUL else ND_DIV) x y) := by
  by_cases h : sym ['*'] o = true
  · rw [if_pos h]
    exact .times o m u x y h hm hu
  · rw [if_neg h]
    exact .over o m u x y (ho.resolve_left h) hm hu

/-- C4: in `a p b m c` and in `a m b p c`, with `p` one of `+ -` and `m` one of
`* /`, the multiplicative operator ends up below the additive one; the code
for `1+2*3` returns 7. -/
theorem precedence (a b c p m eof : Token)
    (ha : a.kind = TK_NUM) (hb : b.kind = TK_NUM) (hc : c.kind = TK_NUM)
    (hp : sym ['+'] p = true ∨ sym ['-'] p = true)
    (hm : sym ['*'] m = true ∨ sym ['/'] m = true) (heof : eof.kind = TK_EOF) :
    expr (parse_fuel [a, p, b, m, c, eof]) [a, p, b, m, c, eof] =
      Res.ok (new_node (if sym ['+'] p = true then ND_ADD else ND_SUB)
        (new_node_num a.val)
        (new_node (if sym ['*'] m = true then ND_MUL else ND_DIV)
          (new_node_num b.val) (new_node_num c.val)), [eof]) ∧
    expr (parse_fuel [a, m, b, p, c, eof]) [a, m, b, p, c, eof] =
      Res.ok (new_node (if sym ['+'] p = true then ND_ADD else ND_SUB)
        (new_node (if sym ['*'] m = true then ND_MUL else ND_DIV)
          (new_node_num a.val) (new_node_num b.val))
        (new_node_num c.val), [eof]) ∧
    Returns "1+2*3".toList 7 := by
  have pa := Parses.num a ha
  have pb := Parses.num b hb
  have pc := Parses.num c hc
  refine ⟨?_, ?_, ?_⟩
  · exact parses_expr (parses_additive_op hp pa.primary_additive
      (parses_multiplicative_op hm pb.primary_multiplicative (.primary _ _ pc)))
      [eof] (noop_eof [] heof)
  · exact parses_expr (parses_additive_op hp
      (.multiplicative _ _
        (parses_multiplicative_op hm pa.primary_multiplicative (.primary _ _ pb)))
      pc.primary_multiplicative) [eof] (noop_eof [] heof)
  · exact returns_of_compile _
      (new_node ND_ADD (new_node_num 1)
        (new_node ND_MUL (new_node_num 2) (new_node_num 3))) (by decide) (by decide)

theorem precedence_witness :
    expr (parse_fuel [num_token 1 [], sym_token '+' [], num_token 2 [], sym_token '*' [],
        num_token 3 [], eof_token])
      [num_token 1 [], sym_token '+' [], num_token 2 [], sym_token '*' [], num_token 3 [],
        eof_token] =
      Res.ok (new_node ND_ADD (new_node_num 1)
        (new_node ND_MUL (new_node_num 2) (new_node_num 3)), [eof_token]) :=
  (precedence (num_token 1 []) (num_token 2 []) (num_token 3 []) (sym_token '+' [])
    (sym_token '*' []) eof_token (by decide) (by decide) (by decide) (by decide) (by decide)
    (by decide)).1

theorem parses_fold_additive (ops : List (Token × Token))
    (hlit : ∀ x ∈ ops, x.2.kind = TK_NUM)
    (hop : ∀ x ∈ ops, sym ['+'] x.1 = true ∨ sym ['-'] x.1 = true)
    (pre : List Token) (acc : Node) (h : Parses .additive pre acc) :
    Parses .additive (pre ++ interleave ops)
      (ops.foldl (fun acc x => new_node (if sym ['+'] x.1 = true then ND_ADD else ND_SUB)
        acc (new_node_num x.2.val)) acc) := by
  induction ops generalizing pre acc with
  | nil => simpa [interleave] using h
  | cons x rest ih =>
    have h1 := parses_additive_op (hop x (by simp)) h
      (Parses.num x.2 (hlit x (by simp))).primary_multiplicative
    have h2 := ih (fun y hy => hlit y (by simp [hy])) (fun y hy => hop y (by simp [hy])) _ _ h1
    simpa [interleave] using h2

theorem parses_fold_multiplicative (ops : List (Token × Token))
    (hlit : ∀ x ∈ ops, x.2.kind = TK_NUM)
    (hop : ∀ x ∈ ops, sym ['*'] x.1 = true ∨ sym ['/'] x.1 = true)
    (pre : List Token) (acc : Node) (h : Parses .multiplicative pre acc) :
    Parses .multiplicative (pre ++ interleave ops)
      (ops.foldl (fun acc x => new_node (if sym ['*'] x.1 = true then ND_MUL else ND_DIV)
        acc (new_node_num x.2.val)) acc) := by
  induction ops generalizing pre acc with
  | nil => simpa [interleave] using h
  | cons x rest ih =>
    have h1 := parses_multiplicative_op (hop x (by simp)) h
      (.primary _ _ (Parses.num x.2 (hlit x (by simp))))
    have h2 := ih (fun y hy => hlit y (by simp [hy])) (fun y hy => hop y (by simp [hy])) _ _ h1
    simpa [interleave] using h2

/-- C5: a sequence `a0 o1 a1 ... on an` of literals and operators of one layer
parses to the left fold: every operator takes the tree built so far as its
left child and the next literal as its right child; `10-2-3` parses to
`(10-2)-3` and its code returns 5. -/
theorem left_assoc (a0 : Token) (ops : List (Token × Token)) (eof : Token)
    (ha0 : a0.kind = TK_NUM) (hlit : ∀ x ∈ ops, x.2.kind = TK_NUM)
    (heof : eof.kind = TK_EOF) :
    ((∀ x ∈ ops, sym ['+'] x.1 = true ∨ sym ['-'] x.1 = true) →
      expr (parse_fuel (a0 :: (interleave ops ++ [eof]))) (a0 :: (interleave ops ++ [eof])) =
        Res.ok (ops.foldl (fun acc x =>
          new_node (if sym ['+'] x.1 = true then ND_ADD else ND_SUB) acc
            (new_node_num x.2.val)) (new_node_num a0.val), [eof])) ∧
    ((∀ x ∈ ops, sym ['*'] x.1 = true ∨ sym ['/'] x.1 = true) →
      expr (parse_fuel (a0 :: (interleave ops ++ [eof]))) (a0 :: (interleave ops ++ [eof])) =
        Res.ok (ops.foldl (fun acc x =>
          new_node (if sym ['*'] x.1 = true then ND_MUL else ND_DIV) acc
            (new_node_num x.2.val)) (new_node_num a0.val), [eof])) ∧
    (tokenize [] "10-2-3".toList).bind (fun ts => expr (parse_fuel ts) ts) =
      Res.ok (new_node ND_SUB (new_node ND_SUB (new_node_num 10) (new_node_num 2))
        (new_node_num 3), [eof_token]) ∧
    Returns "10-2-3".toList 5 := by
  refine ⟨?_, ?_, by decide, ?_⟩
  · intro hop
    have h := parses_fold_additive ops hlit hop [a0] _ (Parses.num a0 ha0).primary_additive
    have := parses_expr h [eof] (noop_eof [] heof)
    simpa using this
  · intro hop
    have h := parses_fold_multiplicative ops hlit hop [a0] _
      (Parses.num a0 ha0).primary_multiplicative
    have := parses_expr (.multiplicative _ _ h) [eof] (noop_eof [] heof)
    simpa using this
  · exact returns_of_compile _
      (new_node ND_SUB (new_node ND_SUB (new_node_num 10) (new_node_num 2)) (new_node_num 3))
      (by decide) (by decide)

theorem left_assoc_witness :
    expr (parse_fuel (num_token 10 [] ::
        (interleave [(sym_token '-' [], num_token 2 []), (sym_token '-' [], num_token 3 [])]
          ++ [eof_token])))
      (num_token 10 [] ::
        (interleave [(sym_token '-' [], num_token 2 []), (sym_token '-' [], num_token 3 [])]
          ++ [eof_token])) =
      Res.ok (new_node ND_SUB (new_node ND_SUB (new_node_num 10) (new_node_num 2))
        (new_node_num 3), [eof_token]) :=
  (left_assoc (num_token 10 [])
    [(sym_token '-' [], num_token 2 []), (sym_token '-' [], num_token 3 [])] eof_token
    (by decide) (by decide) (by decide)).1 (by decide)

/-- C6: if `e` followed by end-of-input parses to `N` with the cursor on the
end-of-input token, then `( e )` followed by end-of-input parses to the same
`N` with the cursor on the end-of-input token; so `(e)` and `e` compile to the
same program. -/
theorem paren_roundtrip (e : List Token) (eof lp rp : Token) (N : Node)
    (heof : eof.kind = TK_EOF) (hlp : sym ['('] lp = true) (hrp : sym [')'] rp = true)
    (h : expr (parse_fuel (e ++ [eof])) (e ++ [eof]) = Res.ok (N, [eof])) :
    expr (parse_fuel (lp :: (e ++ [rp, eof]))) (lp :: (e ++ [rp, eof])) = Res.ok (N, [eof]) ∧
    compile "(1+2)".toList = compile "1+2".toList := by
  refine ⟨?_, by decide⟩
  obtain ⟨pre, hpre, hp, _⟩ := expr_sound h
  have he : e = pre := List.append_cancel_right hpre
  subst he
  have := parses_expr (Parses.paren lp rp e N hlp hrp hp).primary_additive [eof]
    (noop_eof [] heof)
  simpa using this

theorem paren_roundtrip_witness :
    expr (parse_fuel (sym_token '(' [] :: ([num_token 1 []] ++ [sym_token ')' [], eof_token])))
      (sym_token '(' [] :: ([num_token 1 []] ++ [sym_token ')' [], eof_token])) =
      Res.ok (new_node_num 1, [eof_token]) :=
  (paren_roundtrip [num_token 1 []] eof_token (sym_token '(' []) (sym_token ')' [])
    (new_node_num 1) (by decide) (by decide) (by decide) (by decide)).1

/-- C7: if the primary `p` parses to `P`, then `- p` parses to `0 - P`, the
tree that `( 0 - p )` parses to; `-5` and `(0-5)` compile to the same program,
and `-3+5` parses to `(0-3)+5`, whose code returns 2. -/
theorem unary_minus (p : List Token) (eof minus lp zero rp : Token) (P : Node) (f : Nat)
    (hp : term f (p ++ [eof]) = Res.ok (P, [eof])) (heof : eof.kind = TK_EOF)
    (hminus : sym ['-'] minus = true) (hlp : sym ['('] lp = true) (hrp : sym [')'] rp = true)
    (hzero : zero.kind = TK_NUM ∧ zero.val = 0) :
    expr (parse_fuel (minus :: (p ++ [eof]))) (minus :: (p ++ [eof])) =
      Res.ok (new_node ND_SUB (new_node_num 0) P, [eof]) ∧
    expr (parse_fuel (lp :: zero :: minus :: (p ++ [rp, eof])))
        (lp :: zero :: minus :: (p ++ [rp, eof])) =
      Res.ok (new_node ND_SUB (new_node_num 0) P, [eof]) ∧
    compile "-5".toList = compile "(0-5)".toList ∧
    (tokenize [] "-3+5".toList).bind (fun ts => expr (parse_fuel ts) ts) =
      Res.ok (new_node ND_ADD (new_node ND_SUB (new_node_num 0) (new_node_num 3))
        (new_node_num 5), [eof_token]) ∧
    Returns "-3+5".toList 2 := by
  obtain ⟨pre, hpre, hprim⟩ := run_sound f (.term (p ++ [eof])) P [eof] hp
  have he : p = pre := List.append_cancel_right hpre
  subst he
  refine ⟨?_, ?_, by decide, by decide, ?_⟩
  · have := parses_expr
      (Parses.multiplicative _ _ (.unary _ _ (.minus minus p P hminus hprim))) [eof]
      (noop_eof [] heof)
    simpa using this
  · have hz : Parses .additive [zero] (new_node_num 0) := by
      have := (Parses.num zero hzero.1).primary_additive
      rwa [hzero.2] at this
    have hd := Parses.difference minus [zero] p (new_node_num 0) P hminus hz
      hprim.primary_multiplicative
    have := parses_expr (Parses.paren lp rp _ _ hlp hrp hd).primary_additive [eof]
      (noop_eof [] heof)
    simpa using this
  · exact returns_of_compile _
      (new_node ND_ADD (new_node ND_SUB (new_node_num 0) (new_node_num 3)) (new_node_num 5))
      (by decide) (by decide)

theorem unary_minus_witness :
    expr (parse_fuel (sym_token '-' [] :: ([num_token 5 []] ++ [eof_token])))
      (sym_token '-' [] :: ([num_token 5 []] ++ [eof_token])) =
      Res.ok (new_node ND_SUB (new_node_num 0) (new_node_num 5), [eof_token]) :=
  (unary_minus [num_token 5 []] eof_token (sym_token '-' []) (sym_token '(' [])
    (num_token 0 []) (sym_token ')' []) (new_node_num 5) 1 (by decide) (by decide) (by decide)
    (by decide) (by decide) (by decide)).1

/-- C12: if `e` followed by end-of-input parses to `N` with the cursor on the
end-of-input token, then `e t r` followed by end-of-input, with `t` none of
`+ - * /`, parses to `N` with the cursor on `t` (the tokens `eof` and `eof2`
stand for the end-of-input token; the proof does not need their kind); the
compiler prints for `1 2`, `1)` and `1==2` the program of `1` and exits with
status 0. -/
theorem trailing_tokens (e r : List Token) (eof t eof2 : Token) (N : Node)
    (ht : sym ['+'] t = false ∧ sym ['-'] t = false ∧ sym ['*'] t = false ∧
      sym ['/'] t = false)
    (h : expr (parse_fuel (e ++ [eof])) (e ++ [eof]) = Res.ok (N, [eof])) :
    expr (parse_fuel (e ++ t :: (r ++ [eof2]))) (e ++ t :: (r ++ [eof2])) =
      Res.ok (N, t :: (r ++ [eof2])) ∧
    compile "1 2".toList = compile "1".toList ∧
    compile "1)".toList = compile "1".toList ∧
    compile "1==2".toList = compile "1".toList ∧
    (compile "1".toList).status = some 0 := by
  refine ⟨?_, by decide, by decide, by decide, by decide⟩
  obtain ⟨pre, hpre, hp, _⟩ := expr_sound h
  have he : e = pre := List.append_cancel_right hpre
  subst he
  exact parses_expr hp (t :: (r ++ [eof2])) ht

theorem trailing_tokens_witness :
    expr (parse_fuel ([num_token 1 []] ++ num_token 2 [] :: ([] ++ [eof_token])))
      ([num_token 1 []] ++ num_token 2 [] :: ([] ++ [eof_token])) =
      Res.ok (new_node_num 1, num_token 2 [] :: ([] ++ [eof_token])) :=
  (trailing_tokens [num_token 1 []] [] eof_token (num_token 2 []) eof_token (new_node_num 1)
    (by decide) (by decide)).1

end NineCC


namespace NineCC

open TokenKind NodeKind Node

/-! ## Failing parses -/

theorem ev_mul_fatal {token : List Token} {loc : List Char} {fmt : String}
    (h : Ev (fun f => unary f token) (Res.fatal loc fmt)) :
    Ev (fun f => mul f token) (Res.fatal loc fmt) := by
  refine Ev.of_succ ?_
  simp only [mul_succ]
  exact Ev.seq h (Ev.const _)

theorem ev_add_fatal {token : List Token} {loc : List Char} {fmt : String}
    (h : Ev (fun f => mul f token) (Res.fatal loc fmt)) :
    Ev (fun f => add f token) (Res.fatal loc fmt) := by
  refine Ev.of_succ ?_
  simp only [add_succ]
  exact Ev.seq h (Ev.const _)

theorem ev_term_not_number (t : Token) (next : List Token)
    (h1 : sym ['('] t = false) (h2 : t.kind ≠ TK_NUM) :
    Ev (fun f => term f (t :: next)) (Res.fatal t.str "Not a number") := by
  refine Ev.of_succ ?_
  simp only [term_cons, h1, h2, Bool.false_eq_true, if_false]
  exact Ev.const _

theorem ev_unary_not_number (t : Token) (next : List Token)
    (h : t.kind ≠ TK_RESERVED) (h2 : t.kind ≠ TK_NUM) :
    Ev (fun f => unary f (t :: next)) (Res.fatal t.str "Not a number") := by
  refine Ev.of_succ ?_
  simp only [unary_cons, sym_of_kind h, Bool.false_eq_true, if_false]
  exact ev_term_not_number t next (sym_of_kind h) h2

theorem unary_sign_sign (f : Nat) (s1 s2 : Token) (rest : List Token)
    (h1 : sym ['+'] s1 = true ∨ sym ['-'] s1 = true)
    (h2 : sym ['+'] s2 = true ∨ sym ['-'] s2 = true) :
    unary (f + 2) (s1 :: s2 :: rest) = Res.fatal s2.str "Not a number" := by
  have hk : s2.kind ≠ TK_NUM := by
    rcases h2 with h2 | h2 <;> rw [sym_kind h2] <;> decide
  have hp : sym ['('] s2 = false := by
    rcases h2 with h2 | h2 <;> exact sym_unique h2 (by decide)
  have ht : term (f + 1) (s2 :: rest) = Res.fatal s2.str "Not a number" := by
    rw [term_cons]
    simp [hp, hk]
  rw [unary_cons]
  by_cases h : sym ['+'] s1 = true
  · rw [if_pos h, ht]
  · rw [if_neg h, if_pos (h1.resolve_left h), ht]
    rfl

/-- C17: when a sign token in unary position is followed by another `+` or `-`
token, `unary` fails with the diagnostic `Not a number` at the second sign
token, whatever follows, and so does the whole parse when the two signs open
the input; `++5`, `--5`, `+-5` and `-+5` are all rejected at offset 1. -/
theorem unary_no_reentry (s1 s2 : Token) (rest : List Token)
    (h1 : sym ['+'] s1 = true ∨ sym ['-'] s1 = true)
    (h2 : sym ['+'] s2 = true ∨ sym ['-'] s2 = true) :
    (∀ f, unary (f + 2) (s1 :: s2 :: rest) = Res.fatal s2.str "Not a number") ∧
    expr (parse_fuel (s1 :: s2 :: rest)) (s1 :: s2 :: rest) =
      Res.fatal s2.str "Not a number" ∧
    compile "++5".toList = Outcome.error 1 "Not a number" ∧
    compile "--5".toList = Outcome.error 1 "Not a number" ∧
    compile "+-5".toList = Outcome.error 1 "Not a number" ∧
    compile "-+5".toList = Outcome.error 1 "Not a number" := by
  refine ⟨fun f => unary_sign_sign f s1 s2 rest h1 h2, ?_, by decide, by decide, by decide,
    by decide⟩
  have hu : Ev (fun f => unary f (s1 :: s2 :: rest)) (Res.fatal s2.str "Not a number") :=
    Ev.of_succ (Ev.of_succ ⟨0, fun f _ => unary_sign_sign f s1 s2 rest h1 h2⟩)
  exact Ev.parse_result (Ev.expr_of_add (ev_add_fatal (ev_mul_fatal hu)))

theorem unary_no_reentry_witness :
    (∀ f, unary (f + 2) (sym_token '+' ['+', '5'] :: sym_token '+' ['5'] :: [num_token 5 ['5'],
        eof_token]) = Res.fatal (sym_token '+' ['5']).str "Not a number") ∧
    expr (parse_fuel (sym_token '+' ['+', '5'] :: sym_token '+' ['5'] :: [num_token 5 ['5'],
        eof_token]))
      (sym_token '+' ['+', '5'] :: sym_token '+' ['5'] :: [num_token 5 ['5'], eof_token]) =
      Res.fatal (sym_token '+' ['5']).str "Not a number" ∧
    compile "++5".toList = Outcome.error 1 "Not a number" ∧
    compile "--5".toList = Outcome.error 1 "Not a number" ∧
    compile "+-5".toList = Outcome.error 1 "Not a number" ∧
    compile "-+5".toList = Outcome.error 1 "Not a number" :=
  unary_no_reentry (sym_token '+' ['+', '5']) (sym_token '+' ['5'])
    [num_token 5 ['5'], eof_token] (by decide) (by decide)

/-- C18: `expr` behaves like `add`: with the driver's fuel, and with any fuel
`f` for `add` and `f + 3` for `expr`, the two give the same result (the same
tree and cursor, or the same failure); the loop of `expr`, started where `add`
has returned, returns at once without consuming a token. -/
theorem expr_is_add (token : List Token) :
    expr (parse_fuel token) token = add (parse_fuel token) token ∧
    (∀ f, expr (f + 3) token = add f token) ∧
    (∀ f n r, add f token = Res.ok (n, r) → ∀ g, expr_loop (g + 1) n r = Res.ok (n, r)) := by
  refine ⟨?_, fun f => expr_eq_add_fuel f token, ?_⟩
  · have h := run_stable (parse_fuel token + 3) (.expr token) (by rw [expr_need]; omega)
    rw [expr_need] at h
    simp only [Call.run] at h
    rw [← h]
    exact expr_eq_add_fuel _ token
  · intro f n r h g
    obtain ⟨_, _, _, hno⟩ := run_sound f (.add token) n r h
    cases r with
    | nil => exact hno.elim
    | cons t next =>
      rw [expr_loop_cons]
      simp [hno.1, hno.2.1]

theorem expr_is_add_witness :
    expr_loop 1 (new_node_num 1) [eof_token] = Res.ok (new_node_num 1, [eof_token]) :=
  (expr_is_add [num_token 1 [], eof_token]).2.2 5 (new_node_num 1) [eof_token] (by decide) 0

/-- C19: on a token list that ends in the end-of-input token, `expr` never dereferences a missing token, with any fuel; when it
returns, the cursor is on a token of the list, at or before the end-of-input
token.  `consume` returns false on the end-of-input token and `expect` and
`expect_number` raise on it. -/
theorem cursor_in_bounds (init : List Token) (eof : Token) (heof : eof.kind = TK_EOF) :
    (∀ f, expr f (init ++ [eof]) ≠ Res.fault) ∧
    (∀ f n r, expr f (init ++ [eof]) = Res.ok (n, r) →
      ∃ pre rest, init = pre ++ rest ∧ r = rest ++ [eof]) ∧
    (∀ op next, consume op (eof :: next) = Res.ok (false, eof :: next)) ∧
    (∀ op next, expect op (eof :: next) = Res.fatal eof.str "'%c' is unexpected") ∧
    (∀ next, expect_number (eof :: next) = Res.fatal eof.str "Not a number") := by
  have hE : HasEof (init ++ [eof]) := ⟨eof, by simp, heof⟩
  have hr : eof.kind ≠ TK_RESERVED := by rw [heof]; decide
  refine ⟨?_, ?_, ?_, ?_, ?_⟩
  · intro f
    exact (run_no_fault f (.expr (init ++ [eof])) hE).1
  · intro f n r h
    have h1 := (run_no_fault f (.expr (init ++ [eof])) hE).2 (n, r) h
    obtain ⟨pre, hpre, _, _⟩ := expr_sound h
    rcases List.eq_nil_or_concat r with rfl | ⟨rest, x, rfl⟩
    · exact absurd rfl h1.ne_nil
    · rw [List.concat_eq_append, ← List.append_assoc] at hpre
      obtain ⟨h2, h3⟩ := List.append_inj' hpre rfl
      simp only [List.cons.injEq, and_true] at h3
      subst h3
      exact ⟨pre, rest, h2, by simp⟩
  · intro op next
    rw [consume_cons, sym_of_kind hr]
    simp
  · intro op next
    rw [expect_cons, sym_of_kind hr]
    simp
  · intro next
    rw [expect_number_cons, heof]
    simp

theorem cursor_in_bounds_witness :
    (∀ f, expr f ([num_token 1 []] ++ [eof_token]) ≠ Res.fault) ∧
    (∀ f n r, expr f ([num_token 1 []] ++ [eof_token]) = Res.ok (n, r) →
      ∃ pre rest, [num_token 1 []] = pre ++ rest ∧ r = rest ++ [eof_token]) ∧
    (∀ op next, consume op (eof_token :: next) = Res.ok (false, eof_token :: next)) ∧
    (∀ op next, expect op (eof_token :: next) =
      Res.fatal eof_token.str "'%c' is unexpected") ∧
    (∀ next, expect_number (eof_token :: next) = Res.fatal eof_token.str "Not a number") :=
  cursor_in_bounds [num_token 1 []] eof_token (by decide)

end NineCC


namespace NineCC

open TokenKind NodeKind Node

/-! ## A source with one more character -/

theorem strtol_digits_snoc (acc : Nat) (p : List Char) (c : Char) (hc : isdigit c = false) :
    strtol_digits acc (p ++ [c]) = ((strtol_digits acc p).1, (strtol_digits acc p).2 ++ [c]) := by
  induction p generalizing acc with
  | nil => simp [strtol_digits, hc]
  | cons d ds ih =>
    by_cases hd : isdigit d = true
    · simp only [List.cons_append, strtol_digits, hd, if_true]
      exact ih _
    · simp [strtol_digits, hd]

theorem strtol_snoc (p : List Char) (c : Char) (hc : isdigit c = false) :
    strtol (p ++ [c]) = ((strtol p).1, (strtol p).2 ++ [c]) := by
  simp [strtol, strtol_digits_snoc 0 p c hc]

theorem sym_new_token (c : Char) (rest : List Char) :
    sym [c] (new_token TK_RESERVED (c :: rest) 1) = true := by
  simp [sym, new_token, to_size_t, memcmp]

theorem sym_ext (a c : Char) (t : Token) (h : sym [a] t = true) :
    sym [a] { t with str := t.str ++ [c] } = true := by
  have h1 := sym_one h
  simp only [sym, memcmp, Bool.and_eq_true, decide_eq_true_eq, List.length_singleton,
    Bool.not_eq_true', bne_eq_false_iff_eq] at h ⊢
  obtain ⟨⟨hk, hl⟩, _⟩ := h
  refine ⟨⟨hk, hl⟩, ?_⟩
  rw [← hl]
  cases hs : t.str with
  | nil => rw [hs] at h1; simp at h1
  | cons x xs =>
    rw [hs] at h1
    simpa using h1

theorem parses_map (g : Token → Token) (hk : ∀ t, (g t).kind = t.kind)
    (hv : ∀ t, (g t).val = t.val) (hs : ∀ a t, sym [a] t = true → sym [a] (g t) = true)
    {lvl : Level} {pre : List Token} {n : Node} (h : Parses lvl pre n) :
    Parses lvl (pre.map g) n := by
  induction h with
  | num t ht =>
    have := Parses.num (g t) (by rw [hk, ht])
    rwa [hv] at this
  | paren lp rp e n hlp hrp _ ih =>
    simpa using Parses.paren (g lp) (g rp) _ n (hs _ _ hlp) (hs _ _ hrp) ih
  | primary p n _ ih => exact .primary _ _ ih
  | plus s p n h1 _ ih => exact .plus (g s) _ n (hs _ _ h1) ih
  | minus s p n h1 _ ih => exact .minus (g s) _ n (hs _ _ h1) ih
  | unary u n _ ih => exact .unary _ _ ih
  | times o m u a b ho _ _ ihm ihu =>
    simpa using Parses.times (g o) _ _ a b (hs _ _ ho) ihm ihu
  | over o m u a b ho _ _ ihm ihu =>
    simpa using Parses.over (g o) _ _ a b (hs _ _ ho) ihm ihu
  | multiplicative m n _ ih => exact .multiplicative _ _ ih
  | sum o a m x y ho _ _ iha ihm =>
    simpa using Parses.sum (g o) _ _ x y (hs _ _ ho) iha ihm
  | difference o a m x y ho _ _ iha ihm =>
    simpa using Parses.difference (g o) _ _ x y (hs _ _ ho) iha ihm

theorem tokenize_snoc (token : List Token) (c : Char)
    (hc : c = '+' ∨ c = '-' ∨ c = '*' ∨ c = '/') (p : List Char) (ts : List Token)
    (h : tokenize token p = Res.ok ts) :
    tokenize token (p ++ [c]) = Res.ok
      (ts.dropLast.map (fun t => { t with str := t.str ++ [c] }) ++
        [new_token TK_RESERVED [c] 1, new_token TK_EOF [] (-2)]) := by
  have hres : is_reserved_char c = true := by
    rcases hc with rfl | rfl | rfl | rfl <;> decide
  have hdig : isdigit c = false := by
    rcases hc with rfl | rfl | rfl | rfl <;> decide
  have hne : ∀ q ts0, tokenize token q = Res.ok ts0 → ts0 ≠ [] := by
    intro q ts0 h0
    obtain ⟨init, rfl, _⟩ := tokenize_shape token q ts0 h0
    simp
  refine tokenize_induct token (fun p ts => tokenize token (p ++ [c]) = Res.ok
      (ts.dropLast.map (fun t => { t with str := t.str ++ [c] }) ++
        [new_token TK_RESERVED [c] 1, new_token TK_EOF [] (-2)])) ?_ ?_ ?_ ?_ ?_ p ts h
  · exact tokenize_reserved token c [] _ hres (tokenize_nil token)
  · intro c0 cs ts0 hsp _ ih
    rw [List.cons_append, tokenize_cons, if_pos hsp]
    exact ih
  · intro cs ts0 h0 ih
    rw [List.cons_append, List.cons_append, tokenize_cons]
    simp only [show isspace '=' = false by decide, starts_eq_eq, decide_True, Bool.and_self,
      Bool.false_eq_true, if_false, if_true, List.drop_succ_cons, List.drop_zero, ih,
      Res.bind_ok, List.dropLast_cons_of_ne_nil (hne cs ts0 h0), List.map_cons,
      List.cons_append, new_token]
  · intro c0 cs ts0 hc0 h0 ih
    rw [List.cons_append, tokenize_cons]
    simp only [reserved_not_isspace hc0, reserved_not_starts_eq_eq _ hc0, hc0,
      Bool.false_eq_true, if_false, if_true, ih, Res.bind_ok,
      List.dropLast_cons_of_ne_nil (hne cs ts0 h0), List.map_cons, List.cons_append, new_token]
  · intro c0 cs ts0 hc0 h0 ih
    have hs := strtol_snoc (c0 :: cs) c hdig
    rw [List.cons_append] at hs
    rw [List.cons_append, tokenize_cons]
    simp only [isdigit_not_isspace hc0, isdigit_not_starts_eq_eq _ hc0,
      isdigit_not_reserved hc0, hc0, Bool.false_eq_true, if_false, if_true, hs, ih,
      Res.bind_ok, List.dropLast_cons_of_ne_nil (hne _ ts0 h0), List.map_cons,
      List.cons_append, new_token]

theorem ev_add_of_mul_loop_fatal {pre : List Token} {n : Node} (h : Parses .additive pre n)
    (r : List Token) (loc : List Char) (fmt : String)
    (hm : ∀ M, Ev (fun f => mul_loop f M r) (Res.fatal loc fmt)) :
    Ev (fun f => add f (pre ++ r)) (Res.fatal loc fmt) := by
  cases h with
  | multiplicative m n hmul =>
    exact ev_add_fatal (parses_complete hmul r _ (hm n))
  | sum o a m x y ho ha hmul =>
    rw [List.append_assoc, List.cons_append]
    refine parses_complete ha _ _ ⟨sym_unique ho (by decide), sym_unique ho (by decide)⟩
      (Ev.of_succ ?_)
    simp only [add_loop_cons, ho, if_true]
    exact Ev.seq (parses_complete hmul r _ (hm y)) (Ev.const _)
  | difference o a m x y ho ha hmul =>
    rw [List.append_assoc, List.cons_append]
    refine parses_complete ha _ _ ⟨sym_unique ho (by decide), sym_unique ho (by decide)⟩
      (Ev.of_succ ?_)
    simp only [add_loop_cons, sym_unique ho (by decide : '-' ≠ '+'), ho, Bool.false_eq_true,
      if_false, if_true]
    exact Ev.seq (parses_complete hmul r _ (hm y)) (Ev.const _)

/-- After a complete expression, a binary operator followed by a token that
starts no operand makes the parse fail at that token. -/
theorem expr_missing_operand {pre : List Token} {n : Node} (h : Parses .additive pre n)
    (o x : Token) (next : List Token)
    (ho : sym ['+'] o = true ∨ sym ['-'] o = true ∨ sym ['*'] o = true ∨ sym ['/'] o = true)
    (hx : x.kind ≠ TK_RESERVED) (hx2 : x.kind ≠ TK_NUM) :
    expr (parse_fuel (pre ++ o :: x :: next)) (pre ++ o :: x :: next) =
      Res.fatal x.str "Not a number" := by
  have hu := ev_unary_not_number x next hx hx2
  apply Ev.parse_result
  apply Ev.expr_of_add
  rcases ho with ho | ho | ho | ho
  · refine parses_complete h _ _ ⟨sym_unique ho (by decide), sym_unique ho (by decide)⟩
      (Ev.of_succ ?_)
    simp only [add_loop_cons, ho, if_true]
    exact Ev.seq (ev_mul_fatal hu) (Ev.const _)
  · refine parses_complete h _ _ ⟨sym_unique ho (by decide), sym_unique ho (by decide)⟩
      (Ev.of_succ ?_)
    simp only [add_loop_cons, sym_unique ho (by decide : '-' ≠ '+'), ho, Bool.false_eq_true,
      if_false, if_true]
    exact Ev.seq (ev_mul_fatal hu) (Ev.const _)
  · refine ev_add_of_mul_loop_fatal h _ _ _ (fun M => Ev.of_succ ?_)
    simp only [mul_loop_cons, ho, if_true]
    exact Ev.seq hu (Ev.const _)
  · refine ev_add_of_mul_loop_fatal h _ _ _ (fun M => Ev.of_succ ?_)
    simp only [mul_loop_cons, sym_unique ho (by decide : '/' ≠ '*'), ho, Bool.false_eq_true,
      if_false, if_true]
    exact Ev.seq hu (Ev.const _)

/-- An opening parenthesis before a complete expression that is not closed makes
the parse fail at the token after the expression. -/
theorem expr_missing_paren (lp x : Token) (toks : List Token) (next : List Token) (n : Node)
    (f : Nat) (hlp : sym ['('] lp = true) (hx : sym [')'] x = false)
    (h : expr f toks = Res.ok (n, x :: next)) :
    expr (parse_fuel (lp :: toks)) (lp :: toks) = Res.fatal x.str "'%c' is unexpected" := by
  have hE : Ev (fun g => expr g toks) (Res.ok (n, x :: next)) :=
    ev_of_run (c := .expr toks) h (by simp)
  have ht : Ev (fun g => term g (lp :: toks)) (Res.fatal x.str "'%c' is unexpected") := by
    refine Ev.of_succ ?_
    simp only [term_cons, hlp, if_true]
    refine Ev.seq hE ?_
    simp only [Res.bind_ok, expect_cons, hx, Bool.false_eq_true, if_false, Res.bind_fatal]
    exact Ev.const _
  have hu : Ev (fun g => unary g (lp :: toks)) (Res.fatal x.str "'%c' is unexpected") := by
    refine Ev.of_succ ?_
    simp only [unary_cons, sym_unique hlp (by decide : '(' ≠ '+'),
      sym_unique hlp (by decide : '(' ≠ '-'), Bool.false_eq_true, if_false]
    exact ht
  exact Ev.parse_result (Ev.expr_of_add (ev_add_fatal (ev_mul_fatal hu)))

/-- C11: if the source `e` compiles as a complete expression (the parse ends on
the end-of-input token), then `e` followed by one of `+ - * /` and `(` followed
by `e` both end with exit status 1 and a diagnostic at the offset of the
end-of-input token, the length of the whole input, and print no assembly. -/
theorem missing_token (e : List Char) (toks : List Token) (N : Node) (x : Token)
    (htok : tokenize [] e = Res.ok toks)
    (hparse : expr (parse_fuel toks) toks = Res.ok (N, [x])) :
    (∀ c, c = '+' ∨ c = '-' ∨ c = '*' ∨ c = '/' →
      compile (e ++ [c]) = Outcome.error ((e ++ [c]).length : Nat) "Not a number") ∧
    compile ('(' :: e) = Outcome.error (('(' :: e).length : Nat) "'%c' is unexpected" ∧
    (∀ pos fmt, (Outcome.error pos fmt).status = some 1 ∧ (Outcome.error pos fmt).stdout = []) ∧
    compile "1+".toList = Outcome.error 2 "Not a number" ∧
    compile "(1+2".toList = Outcome.error 4 "'%c' is unexpected" := by
  obtain ⟨init, hinit, _⟩ := tokenize_shape [] e toks htok
  obtain ⟨pre, hpre, hp, _⟩ := expr_sound hparse
  rw [hinit] at hpre
  obtain ⟨h1, h2⟩ := List.append_inj' hpre rfl
  simp only [List.cons.injEq, and_true] at h2
  subst h1 h2
  refine ⟨?_, ?_, fun _ _ => ⟨rfl, rfl⟩, by decide, by decide⟩
  · intro c hc
    have ht := tokenize_snoc [] c hc e toks htok
    rw [hinit, List.dropLast_concat] at ht
    have hp2 := parses_map (fun t => { t with str := t.str ++ [c] }) (fun _ => rfl)
      (fun _ => rfl) (fun a t h => sym_ext a c t h) hp
    have ho : sym ['+'] (new_token TK_RESERVED [c] 1) = true ∨
        sym ['-'] (new_token TK_RESERVED [c] 1) = true ∨
        sym ['*'] (new_token TK_RESERVED [c] 1) = true ∨
        sym ['/'] (new_token TK_RESERVED [c] 1) = true := by
      rcases hc with rfl | rfl | rfl | rfl <;> decide
    have he := expr_missing_operand hp2 (new_token TK_RESERVED [c] 1)
      (new_token TK_EOF [] (-2)) [] ho (by decide) (by decide)
    simp only [compile, ht, he]
    simp [error_pos, new_token]
  · have ht := tokenize_reserved [] '(' e toks (by decide) htok
    have he := expr_missing_paren (new_token TK_RESERVED ('(' :: e) 1)
      (new_token TK_EOF [] (-2)) toks [] N _ (sym_new_token _ _) (by decide)
      hparse
    simp only [compile, ht, he]
    simp [error_pos, new_token]

theorem missing_token_witness :
    (∀ c, c = '+' ∨ c = '-' ∨ c = '*' ∨ c = '/' →
      compile (['1'] ++ [c]) = Outcome.error ((['1'] ++ [c]).length : Nat) "Not a number") ∧
    compile ('(' :: ['1']) = Outcome.error (('(' :: ['1']).length : Nat) "'%c' is unexpected" ∧
    (∀ pos fmt, (Outcome.error pos fmt).status = some 1 ∧ (Outcome.error pos fmt).stdout = []) ∧
    compile "1+".toList = Outcome.error 2 "Not a number" ∧
    compile "(1+2".toList = Outcome.error 4 "'%c' is unexpected" :=
  missing_token ['1'] [num_token 1 ['1'], eof_token] (new_node_num 1) eof_token (by decide)
    (by decide)

end NineCC


namespace NineCC

open TokenKind NodeKind Node

/-! ## The whole compiler -/

theorem fits64_of_int (v : Nat) (h : v < 2147483648) : fits64 (v : Int) = true := by
  simp only [fits64, Bool.and_eq_true, decide_eq_true_eq]
  omega

theorem compile_of_parse (user_input : List Char) (toks : List Token) (n : Node)
    (r : List Token) (ht : tokenize [] user_input = Res.ok toks)
    (hp : expr (parse_fuel toks) toks = Res.ok (n, r)) :
    compile user_input = Outcome.success (prologue ++ (gen n ++ epilogue).map Instr.asm) := by
  simp only [compile, ht, hp]

/-- The fuel that `compile` passes to the tokenizer and the parser is enough. -/
theorem compile_ne_timeout (user_input : List Char) : compile user_input ≠ Outcome.timeout := by
  unfold compile
  have h1 := tokenize_ne_timeout [] user_input
  cases ht : tokenize [] user_input with
  | ok toks =>
    have h2 := run_terminates (parse_fuel toks) (.expr toks) (by rw [expr_need])
    simp only [Call.run] at h2
    cases hp : expr (parse_fuel toks) toks with
    | ok r => simp [hp]
    | fatal loc fmt => simp [hp]
    | fault => simp [hp]
    | timeout => exact absurd hp h2
  | fatal loc fmt => simp
  | fault => simp
  | timeout => exact absurd ht h1

/-- C3, the claim as stated fails: the literal `2147483648` has the base-10
value `2147483648`, and the program printed for it pushes `-2147483648`. -/
theorem literal_overflow :
    decimal "2147483648".toList = 2147483648 ∧
    compile "2147483648".toList = Outcome.success
      [".intel_syntax noprefix\n", ".global main\n", "main:\n", "  push -2147483648\n",
        "  pop rax\n", "  ret\n"] ∧
    compile "2147483648".toList ≠ Outcome.success
      [".intel_syntax noprefix\n", ".global main\n", "main:\n", "  push 2147483648\n",
        "  pop rax\n", "  ret\n"] := by
  refine ⟨by simp [decimal, Nat.ofDigits], by decide, by decide⟩

/-- C3, amended: for a source that is a non-empty run of digits whose base-10
value `n` is below `2^31`, compilation succeeds with status 0 and prints the
three prologue lines, the line `push n` and the two epilogue lines, and the
printed program returns `n`. -/
theorem literal_program (d : List Char) (hd : d ≠ []) (hdig : ∀ c ∈ d, isdigit c = true)
    (hv : decimal d < 2147483648) :
    compile d = Outcome.success
      [".intel_syntax noprefix\n", ".global main\n", "main:\n",
        "  push " ++ toString (decimal d : Int) ++ "\n", "  pop rax\n", "  ret\n"] ∧
    (compile d).status = some 0 ∧
    Returns d (decimal d : Int) := by
  have ht := tokenize_digits [] d [] _ hd hdig (by simp) (tokenize_nil [])
  rw [List.append_nil, to_int_small _ hv] at ht
  have hp := parses_expr (Parses.num
    { kind := TK_NUM, val := (decimal d : Int), str := d, len := -1 } rfl).primary_additive
    [new_token TK_EOF [] (-2)] (noop_eof [] rfl)
  have hc := compile_of_parse d _ _ _ ht hp
  refine ⟨?_, ?_, ?_⟩
  · rw [hc]; rfl
  · rw [hc]; rfl
  · exact returns_of_compile d (new_node_num (decimal d : Int)) hc (fits64_of_int _ hv)

theorem literal_program_witness :
    compile ['4', '2'] = Outcome.success
      [".intel_syntax noprefix\n", ".global main\n", "main:\n",
        "  push " ++ toString (decimal ['4', '2'] : Int) ++ "\n", "  pop rax\n", "  ret\n"] ∧
    (compile ['4', '2']).status = some 0 ∧
    Returns ['4', '2'] (decimal ['4', '2'] : Int) :=
  literal_program ['4', '2'] (by decide) (by decide) (by simp [decimal, Nat.ofDigits])

theorem denotes_tokens {lvl : Level} {text : List Char} {v : Int} (h : Denotes lvl text v) :
    fits64 v = true ∧
    ∀ (token : List Token) (rest : List Char) (tsr : List Token),
      (∀ c ∈ rest.head?, isdigit c = false) → tokenize token rest = Res.ok tsr →
      ∃ pre n, tokenize token (text ++ rest) = Res.ok (pre ++ tsr) ∧ Parses lvl pre n ∧
        eval n = v ∧ no_trap n = true := by
  induction h with
  | literal d hd hdig hv =>
    refine ⟨fits64_of_int _ hv, ?_⟩
    intro token rest tsr hr ht
    have h1 := tokenize_digits token d rest tsr hd hdig hr ht
    rw [to_int_small _ hv] at h1
    exact ⟨[_], _, h1, Parses.num _ rfl, rfl, fits64_of_int _ hv⟩
  | paren e v _ ih =>
    refine ⟨ih.1, ?_⟩
    intro token rest tsr hr ht
    have h1 := tokenize_reserved token ')' rest tsr (by decide) ht
    obtain ⟨pre, n, hpre, hp, hev, hnt⟩ := ih.2 token (')' :: rest) _ (by simp; decide) h1
    have h2 := tokenize_reserved token '(' _ _ (by decide) hpre
    refine ⟨new_token TK_RESERVED ('(' :: (e ++ ')' :: rest)) 1 ::
      (pre ++ [new_token TK_RESERVED (')' :: rest) 1]), n, ?_, ?_, hev, hnt⟩
    · simpa using h2
    · exact Parses.paren _ _ pre n (sym_new_token _ _) (sym_new_token _ _) hp
  | primary p v _ ih =>
    refine ⟨ih.1, ?_⟩
    intro token rest tsr hr ht
    obtain ⟨pre, n, hpre, hp, hev, hnt⟩ := ih.2 token rest tsr hr ht
    exact ⟨pre, n, hpre, .primary _ _ hp, hev, hnt⟩
  | plus p v _ ih =>
    refine ⟨ih.1, ?_⟩
    intro token rest tsr hr ht
    obtain ⟨pre, n, hpre, hp, hev, hnt⟩ := ih.2 token rest tsr hr ht
    have h2 := tokenize_reserved token '+' _ _ (by decide) hpre
    exact ⟨_ :: pre, n, by simpa using h2, .plus _ pre n (sym_new_token _ _) hp, hev, hnt⟩
  | minus p v _ hfit ih =>
    refine ⟨hfit, ?_⟩
    intro token rest tsr hr ht
    obtain ⟨pre, n, hpre, hp, hev, hnt⟩ := ih.2 token rest tsr hr ht
    have h2 := tokenize_reserved token '-' _ _ (by decide) hpre
    refine ⟨_ :: pre, _, by simpa using h2, .minus _ pre n (sym_new_token _ _) hp, ?_, ?_⟩
    · simp [eval, hev]
    · have hfit2 : fits64 (-v) = true := by simpa using hfit
      have h0 : fits64 0 = true := by decide
      simp [no_trap, eval, hev, hnt, hfit2, h0]
  | unary u v _ ih =>
    refine ⟨ih.1, ?_⟩
    intro token rest tsr hr ht
    obtain ⟨pre, n, hpre, hp, hev, hnt⟩ := ih.2 token rest tsr hr ht
    exact ⟨pre, n, hpre, .unary _ _ hp, hev, hnt⟩
  | times m u a b _ _ hfit ihm ihu =>
    refine ⟨hfit, ?_⟩
    intro token rest tsr hr ht
    obtain ⟨pu, nu, hpu, hu, heu, hnu⟩ := ihu.2 token rest tsr hr ht
    have h1 := tokenize_reserved token '*' _ _ (by decide) hpu
    obtain ⟨pm, nm, hpm, hm, hem, hnm⟩ := ihm.2 token ('*' :: (u ++ rest)) _ (by simp; decide) h1
    refine ⟨pm ++ new_token TK_RESERVED ('*' :: (u ++ rest)) 1 :: pu, _, by simpa using hpm,
      .times _ pm pu nm nu (sym_new_token _ _) hm hu, ?_, ?_⟩
    · simp [eval, hem, heu]
    · simp [no_trap, eval, hem, heu, hnm, hnu, hfit]
  | over m u a b _ _ hb hfit ihm ihu =>
    refine ⟨hfit, ?_⟩
    intro token rest tsr hr ht
    obtain ⟨pu, nu, hpu, hu, heu, hnu⟩ := ihu.2 token rest tsr hr ht
    have h1 := tokenize_reserved token '/' _ _ (by decide) hpu
    obtain ⟨pm, nm, hpm, hm, hem, hnm⟩ := ihm.2 token ('/' :: (u ++ rest)) _ (by simp; decide) h1
    refine ⟨pm ++ new_token TK_RESERVED ('/' :: (u ++ rest)) 1 :: pu, _, by simpa using hpm,
      .over _ pm pu nm nu (sym_new_token _ _) hm hu, ?_, ?_⟩
    · simp [eval, hem, heu]
    · simp [no_trap, eval, hem, heu, hnm, hnu, hfit, hb]
  | multiplicative m v _ ih =>
    refine ⟨ih.1, ?_⟩
    intro token rest tsr hr ht
    obtain ⟨pre, n, hpre, hp, hev, hnt⟩ := ih.2 token rest tsr hr ht
    exact ⟨pre, n, hpre, .multiplicative _ _ hp, hev, hnt⟩
  | sum a m x y _ _ hfit iha ihm =>
    refine ⟨hfit, ?_⟩
    intro token rest tsr hr ht
    obtain ⟨pm, nm, hpm, hm, hem, hnm⟩ := ihm.2 token rest tsr hr ht
    have h1 := tokenize_reserved token '+' _ _ (by decide) hpm
    obtain ⟨pa, na, hpa, ha, hea, hna⟩ := iha.2 token ('+' :: (m ++ rest)) _ (by simp; decide) h1
    refine ⟨pa ++ new_token TK_RESERVED ('+' :: (m ++ rest)) 1 :: pm, _, by simpa using hpa,
      .sum _ pa pm na nm (sym_new_token _ _) ha hm, ?_, ?_⟩
    · simp [eval, hea, hem]
    · simp [no_trap, eval, hea, hem, hna, hnm, hfit]
  | difference a m x y _ _ hfit iha ihm =>
    refine ⟨hfit, ?_⟩
    intro token rest tsr hr ht
    obtain ⟨pm, nm, hpm, hm, hem, hnm⟩ := ihm.2 token rest tsr hr ht
    have h1 := tokenize_reserved token '-' _ _ (by decide) hpm
    obtain ⟨pa, na, hpa, ha, hea, hna⟩ := iha.2 token ('-' :: (m ++ rest)) _ (by simp; decide) h1
    refine ⟨pa ++ new_token TK_RESERVED ('-' :: (m ++ rest)) 1 :: pm, _, by simpa using hpa,
      .difference _ pa pm na nm (sym_new_token _ _) ha hm, ?_, ?_⟩
    · simp [eval, hea, hem]
    · simp [no_trap, eval, hea, hem, hna, hnm, hfit]
  | blank_before lvl c t v hc _ ih =>
    refine ⟨ih.1, ?_⟩
    intro token rest tsr hr ht
    obtain ⟨pre, n, hpre, hp, hev, hnt⟩ := ih.2 token rest tsr hr ht
    refine ⟨pre, n, ?_, hp, hev, hnt⟩
    rw [List.cons_append, tokenize_cons, if_pos hc]
    exact hpre
  | blank_after lvl c t v hc _ ih =>
    refine ⟨ih.1, ?_⟩
    intro token rest tsr _ ht
    have h1 : tokenize token (c :: rest) = Res.ok tsr := by
      rw [tokenize_cons, if_pos hc]
      exact ht
    have hd : isdigit c = false := by
      cases hx : isdigit c with
      | false => rfl
      | true => rw [isdigit_not_isspace hx] at hc; cases hc
    obtain ⟨pre, n, hpre, hp, hev, hnt⟩ := ih.2 token (c :: rest) tsr (by simpa using hd) h1
    refine ⟨pre, n, ?_, hp, hev, hnt⟩
    rw [List.append_assoc]
    exact hpre

/-- C1: for a well-formed expression (the grammar additive, multiplicative,
unary, primary over decimal literals, `+ - * /`, a leading sign and
parentheses, with blanks anywhere between the tokens) whose value in integer
arithmetic is `v`, with no division by zero and no overflow, the compiler
succeeds and the printed program, run on the stack machine, ends with `v` in
`rax`; `(1+2)*3` gives 9 and `6/3` gives 2. -/
theorem compile_correct (text : List Char) (v : Int) (h : Denotes .additive text v) :
    Returns text v ∧ Returns "(1+2)*3".toList 9 ∧ Returns "6/3".toList 2 := by
  refine ⟨?_, ?_, ?_⟩
  · obtain ⟨pre, n, ht, hp, hev, hnt⟩ :=
      (denotes_tokens h).2 [] [] _ (by simp) (tokenize_nil [])
    rw [List.append_nil] at ht
    have hc := compile_of_parse text _ n _ ht
      (parses_expr hp [new_token TK_EOF [] (-2)] (noop_eof [] rfl))
    rw [← hev]
    exact returns_of_compile text n hc hnt
  · exact returns_of_compile _
      (new_node ND_MUL (new_node ND_ADD (new_node_num 1) (new_node_num 2)) (new_node_num 3))
      (by decide) (by decide)
  · exact returns_of_compile _ (new_node ND_DIV (new_node_num 6) (new_node_num 3))
      (by decide) (by decide)

theorem compile_correct_witness :
    Returns ((' ' :: (['6'] ++ [' '])) ++ '/' :: (' ' :: ['3']))
      (Int.tdiv (decimal ['6'] : Int) (decimal ['3'] : Int)) ∧
    Returns "(1+2)*3".toList 9 ∧ Returns "6/3".toList 2 :=
  compile_correct ((' ' :: (['6'] ++ [' '])) ++ '/' :: (' ' :: ['3'])) _
    (Denotes.multiplicative _ _
      (Denotes.over (' ' :: (['6'] ++ [' '])) (' ' :: ['3']) _ _
        (Denotes.blank_before _ ' ' _ _ (by decide)
          (Denotes.blank_after _ ' ' _ _ (by decide)
            (Denotes.unary _ _ (Denotes.primary _ _
              (Denotes.literal ['6'] (by decide) (by decide)
                (by simp [decimal, Nat.ofDigits]))))))
        (Denotes.blank_before _ ' ' _ _ (by decide)
          (Denotes.primary _ _
            (Denotes.literal ['3'] (by decide) (by decide)
              (by simp [decimal, Nat.ofDigits]))))
        (by simp [decimal, Nat.ofDigits]) (by simp [decimal, Nat.ofDigits]; decide)))

end NineCC
